import Mathlib

/-!
Verification development for the `equations` repository: a directed graph of
string vertices (`src/classes/Graph.js`), a DFS-based topological sorter with
cycle detection (`src/classes/TopologicalSorter.js`, given here as
`src/unnamed/part_000`), and two near-duplicate resolvers
(`src/classes/EquationResolver.js`: `EquationResolver` and
`ExpressionResolver`) that extract uppercase variable tokens from equation
texts, build the dependency graph, sort it, and expand each equation by
ordered text substitution.

JavaScript objects used as string-keyed maps are embedded as association
lists in key-insertion order (the iteration order of `_.forOwn`/`_.keys` for
non-numeric string keys); objects used as sets are embedded as lists with
insert-if-absent.  Thrown exceptions are embedded as `Except` errors.
Recursions that JavaScript runs unboundedly are given explicit fuel; every
caller passes enough fuel, which the theorems establish.
-/

/-! ## Association-list and set primitives (JS object semantics) -/

/-- Lookup in a string-keyed object: first (unique) matching key. -/
def lookupStr : List (String × String) → String → Option String
  | [], _ => none
  | (k, v) :: rest, key => if k = key then some v else lookupStr rest key

/-- `obj[k] = v` on a string-keyed object: overwrite in place, else append. -/
def setK : List (String × String) → String → String → List (String × String)
  | [], k, v => [(k, v)]
  | (k', v') :: rest, k, v =>
    if k' = k then (k, v) :: rest else (k', v') :: setK rest k v

/-- Insert into an object used as a set (`obj[v] = true`): no-op when present. -/
def insertS (l : List String) (v : String) : List String :=
  if v ∈ l then l else l ++ [v]

/-- `delete obj[v]` on an object used as a set. -/
def removeS (l : List String) (v : String) : List String :=
  l.filter (fun x => decide (x ≠ v))

/-- Lookup in an object mapping vertex names to adjacency arrays. -/
def lookupAdj : List (String × List String) → String → Option (List String)
  | [], _ => none
  | (k, v) :: rest, key => if k = key then some v else lookupAdj rest key

/-- `obj[k] = v` on an object mapping vertex names to adjacency arrays. -/
def setAdj : List (String × List String) → String → List String → List (String × List String)
  | [], k, v => [(k, v)]
  | (k', v') :: rest, k, v =>
    if k' = k then (k, v) :: rest else (k', v') :: setAdj rest k v

/-! ## Variable-token scanning

`exprVarTokenRe : /\b[A-Z]+\b(?!\()/g` (`src/classes/EquationResolver.js:100`).
A global regex scan over the string: at each position with no word character
immediately before it, a run of one or more uppercase letters closed by a word
boundary and not followed by `(` is a match.  Because `[A-Z]+` can only end at
a word boundary when it covers a maximal run of word characters, a match is
exactly a maximal word-character run that is all uppercase and whose following
character is not `(`.  The scanner below walks the string character by
character carrying the wordness of the previous character (for `\b`); fuel
decreases by one per step, so `length + 1` fuel always suffices. -/

/-- JavaScript `\w`: `[A-Za-z0-9_]`. -/
def isWordChar (c : Char) : Bool :=
  c.isUpper || c.isLower || c.isDigit || c == '_'

/-- All matches of `exprVarTokenRe` in a character list.
`prevW` is the wordness of the preceding character (`false` at the start). -/
def tokF : Nat → Bool → List Char → List (List Char)
  | 0, _, _ => []
  | _ + 1, _, [] => []
  | fuel + 1, prevW, c :: cs =>
    if ¬ prevW ∧ c.isUpper then
      let run := (c :: cs).takeWhile isWordChar
      let rest := (c :: cs).dropWhile isWordChar
      if run.all Char.isUpper ∧ rest.head? ≠ some '(' then
        run :: tokF fuel true rest
      else
        tokF fuel (isWordChar c) cs
    else
      tokF fuel (isWordChar c) cs

/-- `String.prototype.replace` with `exprVarTokenRe` and a replacement
function `f`: unmatched characters are copied, each match is replaced by
`f` applied to the matched token. -/
def replF (f : List Char → List Char) : Nat → Bool → List Char → List Char
  | 0, _, s => s
  | _ + 1, _, [] => []
  | fuel + 1, prevW, c :: cs =>
    if ¬ prevW ∧ c.isUpper then
      let run := (c :: cs).takeWhile isWordChar
      let rest := (c :: cs).dropWhile isWordChar
      if run.all Char.isUpper ∧ rest.head? ≠ some '(' then
        f run ++ replF f fuel true rest
      else
        c :: replF f fuel (isWordChar c) cs
    else
      c :: replF f fuel (isWordChar c) cs

/-- `expr.match( exprVarTokenRe ) || []` (`src/classes/EquationResolver.js:127`). -/
def extractTokens (s : String) : List String :=
  (tokF (s.data.length + 1) false s.data).map String.mk

/-- `expr.replace( exprVarTokenRe, f )` (`src/classes/EquationResolver.js:192`). -/
def replaceTokens (f : String → String) (s : String) : String :=
  String.mk (replF (fun l => (f (String.mk l)).data) (s.data.length + 1) false s.data)

/-! ## Graph (`src/classes/Graph.js`) -/

/-- Adjacency-list directed graph over string vertices.  `vertices` is the
key list of the vertex set object, `adj` the adjacency-list object. -/
structure Graph where
  vertices : List String
  adj : List (String × List String)
deriving Repr, DecidableEq

/-- `new Graph()`. -/
def Graph.empty : Graph := { vertices := [], adj := [] }

/-- `Graph.prototype.addVertex` (`src/classes/Graph.js:22`):
`this.vertices[v] = true` — re-adding an existing key leaves the object
unchanged. -/
def Graph.addVertex (g : Graph) (v : String) : Graph :=
  if v ∈ g.vertices then g else { g with vertices := g.vertices ++ [v] }

/-- `Graph.prototype.getVertices` (`src/classes/Graph.js:32`). -/
def Graph.getVertices (g : Graph) : List String := g.vertices

/-- `Graph.prototype.addEdge` (`src/classes/Graph.js:43`): initialize the
adjacency list if missing, then push `w` unless already contained. -/
def Graph.addEdge (g : Graph) (v w : String) : Graph :=
  match lookupAdj g.adj v with
  | none => { g with adj := setAdj g.adj v [w] }
  | some l => if w ∈ l then g else { g with adj := setAdj g.adj v (l ++ [w]) }

/-- `Graph.prototype.getAdjacencyList` (`src/classes/Graph.js:64`):
`this.adj[v] || []`. -/
def Graph.getAdjacencyList (g : Graph) (v : String) : List String :=
  (lookupAdj g.adj v).getD []

/-- There is a directed edge `v → w` in `g`. -/
def Graph.hasEdge (g : Graph) (v w : String) : Prop :=
  w ∈ g.getAdjacencyList v

instance (g : Graph) (v w : String) : Decidable (g.hasEdge v w) := by
  unfold Graph.hasEdge; infer_instance

/-! ## Topological sorter (`src/unnamed/part_000`) -/

/-- The sorter's mutable fields: `marked`, `onStack`, `edgeTo`, `cycle`,
`ordering` (`src/unnamed/part_000:4-10`). -/
structure SortState where
  marked : List String
  onStack : List String
  edgeTo : List (String × String)
  cycle : Option (List String)
  ordering : List String
deriving Repr, DecidableEq

/-- The parent-link walk `for( var x = v; x != w; x = this.edgeTo[ x ] )`
(`src/unnamed/part_000:49`), collecting the vertices visited before reaching
`w`.  JavaScript iterates unboundedly; in every reachable state the walk
meets `w`, so the fuel (supplied as `edgeTo.length + 1` below) is never
exhausted there. -/
def cycleChain (edgeTo : List (String × String)) : Nat → String → String → List String
  | 0, _, _ => []
  | fuel + 1, x, w =>
    if x = w then [] else x :: cycleChain edgeTo fuel ((lookupStr edgeTo x).getD x) w

/-- Cycle reconstruction (`src/unnamed/part_000:46-52`): `unshift w`, then
unshift each vertex of the parent walk from `v`, then `unshift w` again. -/
def buildCycle (edgeTo : List (String × String)) (v w : String) : List String :=
  w :: (cycleChain edgeTo (edgeTo.length + 1) v w).reverse ++ [w]

/-- `TopologicalSorter.prototype.dfs` (`src/unnamed/part_000:33-61`): mark
`v`, put it on the stack, fold over its adjacency list (skipping once a
cycle is recorded, recursing into unmarked neighbors after recording the
tree edge, recording a cycle when a neighbor is on the stack), then take
`v` off the stack and append it to the post-order `ordering`.  The fuel
bounds the recursion depth; each recursive call is on a newly marked
vertex, so `univLen` fuel (supplied by `TopologicalSorter.run`) always
suffices. -/
def dfsF (g : Graph) : Nat → String → SortState → SortState
  | 0, _, st => st
  | fuel + 1, v, st =>
    let st1 : SortState :=
      { st with marked := insertS st.marked v, onStack := insertS st.onStack v }
    let st2 := (g.getAdjacencyList v).foldl (fun s w =>
      if s.cycle.isSome then s
      else if w ∉ s.marked then dfsF g fuel w { s with edgeTo := setK s.edgeTo w v }
      else if w ∈ s.onStack then { s with cycle := some (buildCycle s.edgeTo v w) }
      else s) st1
    { st2 with onStack := removeS st2.onStack v, ordering := st2.ordering ++ [v] }

/-- Every string the DFS can ever mark: the graph's vertices plus every
entry of every adjacency list.  Its length bounds the recursion depth. -/
def univList (g : Graph) : List String :=
  g.vertices ++ (g.adj.map Prod.snd).flatten

/-- Fuel handed to each top-level DFS. -/
def univLen (g : Graph) : Nat := (univList g).length

/-- The `TopologicalSorter` constructor (`src/unnamed/part_000:3-18`): run a
DFS from each not-yet-marked vertex, in vertex order. -/
def TopologicalSorter.run (g : Graph) : SortState :=
  g.getVertices.foldl
    (fun st v => if v ∈ st.marked then st else dfsF g (univLen g) v st)
    { marked := [], onStack := [], edgeTo := [], cycle := none, ordering := [] }

/-- The error kinds the program can throw. -/
inductive RunError where
  /-- `throw new Error(...)` for a cyclic graph. -/
  | cycleError
  /-- The TypeError of calling `.replace` on `undefined`. -/
  | typeError
deriving Repr, DecidableEq

/-- `TopologicalSorter.prototype.hasCycle` (`src/unnamed/part_000:69`). -/
def TopologicalSorter.hasCycle (st : SortState) : Bool := st.cycle.isSome

/-- `TopologicalSorter.prototype.getCycle` (`src/unnamed/part_000:86`). -/
def TopologicalSorter.getCycle (st : SortState) : Option (List String) := st.cycle

/-- `TopologicalSorter.prototype.getOrdering` (`src/unnamed/part_000:102`):
throws when the graph had a cycle, else returns the post-order. -/
def TopologicalSorter.getOrdering (st : SortState) : Except RunError (List String) :=
  if st.cycle.isSome then .error RunError.cycleError else .ok st.ordering

/-! ## EquationResolver (`src/classes/EquationResolver.js:34-198`) -/

/-- `EquationResolver.prototype.buildGraph`
(`src/classes/EquationResolver.js:119-135`): for each equation add a vertex
for its name; for each extracted token add a vertex and an edge name→token. -/
def buildGraph (input : List (String × String)) : Graph :=
  input.foldl (fun g p =>
    let g1 := g.addVertex p.1
    (extractTokens p.2).foldl (fun g2 d => (g2.addVertex d).addEdge p.1 d) g1)
    Graph.empty

/-- The `EquationResolver` fields after construction: the input map, and
`graphCycle` / `topologicalOrder`, at most one of which is set
(`src/classes/EquationResolver.js:34-45`). -/
structure EquationResolver where
  inputEquations : List (String × String)
  graphCycle : Option (List String)
  topologicalOrder : Option (List String)
deriving Repr, DecidableEq

/-- `new EquationResolver( inputEquations )`
(`src/classes/EquationResolver.js:34-45`). -/
def newEquationResolver (inputEquations : List (String × String)) : EquationResolver :=
  let g := buildGraph inputEquations
  let sorter := TopologicalSorter.run g
  if TopologicalSorter.hasCycle sorter then
    { inputEquations := inputEquations,
      graphCycle := TopologicalSorter.getCycle sorter, topologicalOrder := none }
  else
    { inputEquations := inputEquations,
      graphCycle := none, topologicalOrder := some sorter.ordering }

/-- `EquationResolver.prototype.hasCycle`
(`src/classes/EquationResolver.js:143`): `!!this.graphCycle`. -/
def EquationResolver.hasCycle (r : EquationResolver) : Bool := r.graphCycle.isSome

/-- `EquationResolver.prototype.getCycle`
(`src/classes/EquationResolver.js:154`). -/
def EquationResolver.getCycle (r : EquationResolver) : Option (List String) :=
  r.graphCycle

/-- The `_.forEach` substitution loop of `getExpandedEquations`
(`src/classes/EquationResolver.js:191-195`), walking the topological order.
Looking up a name absent from `inputEquations` yields `undefined`, and
calling `.replace` on it throws a TypeError, which aborts the loop.  Inside
`.replace`, a token absent from the accumulator substitutes the string
`"undefined"` (JavaScript string coercion of the callback's `undefined`). -/
def expandLoop (input : List (String × String)) :
    List String → List (String × String) → Except RunError (List (String × String))
  | [], acc => .ok acc
  | name :: rest, acc =>
    match lookupStr input name with
    | none => .error RunError.typeError
    | some raw =>
      expandLoop input rest
        (setK acc name (replaceTokens (fun t => (lookupStr acc t).getD "undefined") raw))

/-- `EquationResolver.prototype.getExpandedEquations`
(`src/classes/EquationResolver.js:183-198`): throws on a cycle, else runs
the substitution pass over the cached topological order. -/
def EquationResolver.getExpandedEquations (r : EquationResolver) :
    Except RunError (List (String × String)) :=
  if r.hasCycle then .error RunError.cycleError
  else expandLoop r.inputEquations (r.topologicalOrder.getD []) []

/-- A call of the method `getExpandedEquations` as a state transformer on
the resolver object: the body assigns nothing to `this`, so the object
after the call is the object before it. -/
def EquationResolver.getExpandedEquationsCall (r : EquationResolver) :
    Except RunError (List (String × String)) × EquationResolver :=
  (r.getExpandedEquations, r)

/-! ## ExpressionResolver (`src/classes/EquationResolver.js:235-400`), the
near-duplicate second implementation: explicit `graphHasCycle` boolean and
"expression" naming, otherwise the same component. -/

/-- The `ExpressionResolver` fields after construction
(`src/classes/EquationResolver.js:235-247`). -/
structure ExpressionResolver where
  inputExpressions : List (String × String)
  graphHasCycle : Bool
  graphCycle : Option (List String)
  topologicalOrder : Option (List String)
deriving Repr, DecidableEq

/-- `new ExpressionResolver( inputExpressions )`
(`src/classes/EquationResolver.js:235-247`). -/
def newExpressionResolver (inputExpressions : List (String × String)) : ExpressionResolver :=
  let g := buildGraph inputExpressions
  let sorter := TopologicalSorter.run g
  if TopologicalSorter.hasCycle sorter then
    { inputExpressions := inputExpressions, graphHasCycle := true,
      graphCycle := TopologicalSorter.getCycle sorter, topologicalOrder := none }
  else
    { inputExpressions := inputExpressions, graphHasCycle := false,
      graphCycle := none, topologicalOrder := some sorter.ordering }

/-- `ExpressionResolver.prototype.hasCycle`
(`src/classes/EquationResolver.js:345`). -/
def ExpressionResolver.hasCycle (r : ExpressionResolver) : Bool := r.graphHasCycle

/-- `ExpressionResolver.prototype.getCycle`
(`src/classes/EquationResolver.js:356`). -/
def ExpressionResolver.getCycle (r : ExpressionResolver) : Option (List String) :=
  r.graphCycle

/-- `ExpressionResolver.prototype.getExpandedExpressions`
(`src/classes/EquationResolver.js:385-400`). -/
def ExpressionResolver.getExpandedExpressions (r : ExpressionResolver) :
    Except RunError (List (String × String)) :=
  if r.hasCycle then .error RunError.cycleError
  else expandLoop r.inputExpressions (r.topologicalOrder.getD []) []

/-! ## Reachability and directed cycles -/

/-- Reflexive-transitive closure of the edge relation. -/
inductive Reach (g : Graph) : String → String → Prop
  | refl (v : String) : Reach g v v
  | tail {a b c : String} : Reach g a b → g.hasEdge b c → Reach g a c

/-- The graph contains a directed cycle: an edge `v → w` together with a
path from `w` back to `v` (for a self-loop, the empty path). -/
def Graph.hasDirectedCycle (g : Graph) : Prop :=
  ∃ v w, g.hasEdge v w ∧ Reach g w v

/-- Number of potentially markable strings not yet marked. -/
def bound (g : Graph) (st : SortState) : Nat :=
  ((univList g).filter (fun x => decide (x ∉ st.marked))).length
/-! ## DFS invariants

`SortInv` collects the state facts the DFS maintains: stack and ordering
elements are marked, every marked vertex is on the stack or already
ordered, ordering and stack are disjoint, the ordering has no duplicates,
every ordered vertex already has all its out-neighbors ordered before it
(as long as no cycle has been recorded), and any recorded cycle starts and
ends with the same vertex. -/

structure SortInv (g : Graph) (st : SortState) : Prop where
  stackMarked : ∀ x, x ∈ st.onStack → x ∈ st.marked
  ordMarked : ∀ x, x ∈ st.ordering → x ∈ st.marked
  markedCover : ∀ x, x ∈ st.marked → x ∈ st.onStack ∨ x ∈ st.ordering
  ordStackDisj : ∀ x, x ∈ st.ordering → x ∉ st.onStack
  ordNodup : st.ordering.Nodup
  doneEdges : st.cycle = none → ∀ x, x ∈ st.ordering → ∀ w, w ∈ g.getAdjacencyList x →
      w ∈ st.ordering ∧ st.ordering.indexOf w < st.ordering.indexOf x
  cycleShape : st.cycle = none ∨ ∃ w l, st.cycle = some (w :: (l ++ [w]))

/-- Postcondition of one complete `dfs( graph, v )` call. -/
structure DfsPost (g : Graph) (v : String) (st st' : SortState) : Prop where
  inv : SortInv g st'
  markedMono : ∀ x, x ∈ st.marked → x ∈ st'.marked
  vMarked : v ∈ st'.marked
  stackEq : ∀ x, x ∈ st'.onStack ↔ x ∈ st.onStack
  ordExt : ∃ l, st'.ordering = st.ordering ++ l
  vOrd : v ∈ st'.ordering
  cycleMono : st.cycle ≠ none → st'.cycle = st.cycle
  cycleSound : st'.cycle ≠ none → st.cycle ≠ none ∨ g.hasDirectedCycle

/-- The body of the neighbor loop inside `dfs` (`src/unnamed/part_000:37-54`). -/
def dfsBody (g : Graph) (fuel : Nat) (v : String) (s : SortState) (w : String) : SortState :=
  if s.cycle.isSome then s
  else if w ∉ s.marked then dfsF g fuel w { s with edgeTo := setK s.edgeTo w v }
  else if w ∈ s.onStack then { s with cycle := some (buildCycle s.edgeTo v w) }
  else s
/-- Postcondition of the neighbor loop over the suffix `ws` of `v`'s
adjacency list. -/
structure FoldPost (g : Graph) (ws : List String) (st st' : SortState) : Prop where
  inv : SortInv g st'
  markedMono : ∀ x, x ∈ st.marked → x ∈ st'.marked
  stackEq : ∀ x, x ∈ st'.onStack ↔ x ∈ st.onStack
  ordExt : ∃ l, st'.ordering = st.ordering ++ l
  cycleMono : st.cycle ≠ none → st'.cycle = st.cycle
  cycleSound : st'.cycle ≠ none → st.cycle ≠ none ∨ g.hasDirectedCycle
  wsDone : st'.cycle = none → ∀ w, w ∈ ws → w ∈ st'.ordering
/-- The body of the constructor loop (`src/unnamed/part_000:13-17`). -/
def topBody (g : Graph) (st : SortState) (v : String) : SortState :=
  if v ∈ st.marked then st else dfsF g (univLen g) v st
/-- Every edge source of the graph is among its vertices. -/
def GraphWF (g : Graph) : Prop := ∀ a b, g.hasEdge a b → a ∈ g.vertices
/-- Canonical-fuel tokenizer on character lists. -/
def toksL (p : Bool) (s : List Char) : List (List Char) := tokF (s.length + 1) p s

/-- Canonical-fuel replacer on character lists. -/
def replL (f : List Char → List Char) (p : Bool) (s : List Char) : List Char :=
  replF f (s.length + 1) p s
/-! ## The spec's token-extraction rule, stated independently

Modelled from the spec: "a token is a maximal run of one-or-more uppercase
letters, matched as a whole word …, EXCLUDING any such run immediately
followed by an opening parenthesis", applied "identically both when building
graph edges and when performing substitution".  `specWordRuns` decomposes a
string into its maximal word-character runs, each paired with the character
following the run; a run is a token exactly when it is all uppercase and not
followed by `(`. -/

def specWordRuns : List Char → List (List Char × Option Char)
  | [] => []
  | c :: cs =>
    if isWordChar c then
      ((c :: cs).takeWhile isWordChar, ((c :: cs).dropWhile isWordChar).head?) ::
        specWordRuns ((c :: cs).dropWhile isWordChar)
    else specWordRuns cs
termination_by s => s.length
decreasing_by
  · simp only [List.length_cons]
    have hdw : (List.dropWhile isWordChar cs).length ≤ cs.length := by
      induction cs with
      | nil => simp
      | cons x xs ih =>
        by_cases hx : isWordChar x = true
        · rw [List.dropWhile_cons_of_pos hx]
          exact le_trans ih (Nat.le_succ _)
        · rw [List.dropWhile_cons_of_neg (by simpa using hx)]
    rename_i h
    rw [List.dropWhile_cons_of_pos h]
    omega
  · simp

/-- Modelled from the spec: the tokens of a string are its maximal
whole-word runs that are all uppercase and not immediately followed by an
opening parenthesis. -/
def specVarTokens (s : String) : List String :=
  ((specWordRuns s.data).filter
      (fun p => decide (p.1.all Char.isUpper = true ∧ p.2 ≠ some '('))).map
    (fun p => String.mk p.1)

/-- Modelled from the spec: substitution replaces exactly the runs selected
by the same token rule, leaving all other text unchanged. -/
def specSubst (f : List Char → List Char) : List Char → List Char
  | [] => []
  | c :: cs =>
    if isWordChar c then
      (if ((c :: cs).takeWhile isWordChar).all Char.isUpper ∧
          ((c :: cs).dropWhile isWordChar).head? ≠ some '(' then
        f ((c :: cs).takeWhile isWordChar)
      else (c :: cs).takeWhile isWordChar) ++ specSubst f ((c :: cs).dropWhile isWordChar)
    else c :: specSubst f cs
termination_by s => s.length
decreasing_by
  · simp only [List.length_cons]
    have hdw : (List.dropWhile isWordChar cs).length ≤ cs.length := by
      induction cs with
      | nil => simp
      | cons x xs ih =>
        by_cases hx : isWordChar x = true
        · rw [List.dropWhile_cons_of_pos hx]
          exact le_trans ih (Nat.le_succ _)
        · rw [List.dropWhile_cons_of_neg (by simpa using hx)]
    rename_i h
    rw [List.dropWhile_cons_of_pos h]
    omega
  · simp

/-- Modelled from the spec: replacement by the same whole-word-run rule. -/
def specReplaceTokens (f : String → String) (s : String) : String :=
  String.mk (specSubst (fun l => (f (String.mk l)).data) s.data)
/-! ## Membership lemmas for the object primitives -/

theorem mem_insertS {l : List String} {v x : String} :
    x ∈ insertS l v ↔ x = v ∨ x ∈ l := by
  unfold insertS
  by_cases h : v ∈ l
  · simp [h]
    intro hx
    subst hx
    exact h
  · simp [h, or_comm]

theorem mem_removeS {l : List String} {v x : String} :
    x ∈ removeS l v ↔ x ∈ l ∧ x ≠ v := by
  unfold removeS; simp

theorem lookupAdj_mem {adj : List (String × List String)} {v : String} {l : List String}
    (h : lookupAdj adj v = some l) : (v, l) ∈ adj := by
  induction adj with
  | nil => simp [lookupAdj] at h
  | cons p rest ih =>
    obtain ⟨k, u⟩ := p
    unfold lookupAdj at h
    by_cases hk : k = v
    · subst hk
      simp at h
      subst h
      exact List.mem_cons_self _ _
    · simp [hk] at h
      exact List.mem_cons_of_mem _ (ih h)

theorem adj_mem_univ {g : Graph} {v w : String}
    (h : w ∈ g.getAdjacencyList v) : w ∈ univList g := by
  unfold Graph.getAdjacencyList at h
  unfold univList
  cases hl : lookupAdj g.adj v with
  | none => rw [hl] at h; simp at h
  | some l =>
    rw [hl] at h
    simp only [Option.getD_some] at h
    refine List.mem_append_right _ ?_
    rw [List.mem_flatten]
    exact ⟨l, List.mem_map_of_mem Prod.snd (lookupAdj_mem hl), h⟩

theorem mem_setK {acc : List (String × String)} {k v : String} {pr : String × String}
    (h : pr ∈ setK acc k v) : pr = (k, v) ∨ pr ∈ acc := by
  induction acc with
  | nil => simp [setK] at h; simp [h]
  | cons q rest ih =>
    obtain ⟨k', v'⟩ := q
    unfold setK at h
    by_cases hk : k' = k
    · simp [hk] at h
      rcases h with h | h
      · exact Or.inl (by simp [h])
      · exact Or.inr (List.mem_cons_of_mem _ h)
    · simp [hk] at h
      rcases h with h | h
      · exact Or.inr (by simp [h])
      · rcases ih h with h' | h'
        · exact Or.inl h'
        · exact Or.inr (List.mem_cons_of_mem _ h')

/-! ## Counting lemmas for the DFS fuel bound -/


theorem filter_length_le_of_imp {l : List String} {p q : String → Bool}
    (h : ∀ x, q x = true → p x = true) :
    (l.filter q).length ≤ (l.filter p).length := by
  induction l with
  | nil => simp
  | cons a t ih =>
    by_cases hq : q a = true
    · simp only [List.filter_cons, hq, h a hq, if_true, List.length_cons]
      exact Nat.succ_le_succ ih
    · simp only [Bool.not_eq_true] at hq
      cases hp : p a <;> simp [List.filter_cons, hq, hp] <;> omega

theorem filter_length_lt_of_imp {l : List String} {p q : String → Bool} {a : String}
    (h : ∀ x, q x = true → p x = true)
    (ha : a ∈ l) (hpa : p a = true) (hqa : q a = false) :
    (l.filter q).length < (l.filter p).length := by
  induction l with
  | nil => simp at ha
  | cons b t ih =>
    rcases List.mem_cons.mp ha with rfl | hat
    · simp [List.filter_cons, hqa, hpa]
      exact Nat.lt_succ_of_le (filter_length_le_of_imp h)
    · by_cases hq : q b = true
      · simp only [List.filter_cons, hq, h b hq, if_true, List.length_cons]
        exact Nat.succ_lt_succ (ih hat)
      · simp only [Bool.not_eq_true] at hq
        cases hp : p b <;> simp [List.filter_cons, hq, hp]
        · exact ih hat
        · exact Nat.lt_succ_of_lt (ih hat)

theorem bound_le_univLen (g : Graph) (st : SortState) : bound g st ≤ univLen g := by
  unfold bound univLen
  exact List.length_filter_le _ _

theorem bound_le_of_marked_mono {g : Graph} {st st' : SortState}
    (h : ∀ x, x ∈ st.marked → x ∈ st'.marked) : bound g st' ≤ bound g st := by
  unfold bound
  refine filter_length_le_of_imp ?_
  intro x hx
  simp only [decide_eq_true_eq] at hx ⊢
  exact fun hmem => hx (h x hmem)

theorem bound_lt_of_newly_marked {g : Graph} {st st' : SortState} {v : String}
    (hmono : ∀ x, x ∈ st.marked → x ∈ st'.marked)
    (hvu : v ∈ univList g) (hvm : v ∉ st.marked) (hvm' : v ∈ st'.marked) :
    bound g st' < bound g st := by
  unfold bound
  refine filter_length_lt_of_imp ?_ hvu ?_ ?_
  · intro x hx
    simp only [decide_eq_true_eq] at hx ⊢
    exact fun hmem => hx (hmono x hmem)
  · simpa using hvm
  · simpa using hvm'

/-- Changing only `edgeTo` preserves the invariant. -/
theorem SortInv.withEdgeTo {g : Graph} {st : SortState} (h : SortInv g st)
    (e : List (String × String)) : SortInv g { st with edgeTo := e } :=
  { stackMarked := h.stackMarked, ordMarked := h.ordMarked,
    markedCover := h.markedCover, ordStackDisj := h.ordStackDisj,
    ordNodup := h.ordNodup, doneEdges := h.doneEdges, cycleShape := h.cycleShape }


theorem dfsF_succ (g : Graph) (fuel : Nat) (v : String) (st : SortState) :
    dfsF g (fuel + 1) v st =
      (let st1 : SortState :=
        { st with marked := insertS st.marked v, onStack := insertS st.onStack v }
       let st2 := (g.getAdjacencyList v).foldl (dfsBody g fuel v) st1
       { st2 with onStack := removeS st2.onStack v, ordering := st2.ordering ++ [v] }) := rfl


theorem fold_spec (g : Graph) (fuel : Nat) (v : String)
    (IH : ∀ w st, SortInv g st → w ∉ st.marked → w ∈ univList g →
      (∀ x, x ∈ st.onStack → Reach g x w) → bound g st ≤ fuel →
      DfsPost g w st (dfsF g fuel w st)) :
    ∀ (ws : List String) (st : SortState), (∀ w, w ∈ ws → w ∈ g.getAdjacencyList v) →
      SortInv g st → v ∈ st.marked → v ∈ st.onStack →
      (∀ x, x ∈ st.onStack → Reach g x v) →
      bound g st ≤ fuel →
      FoldPost g ws st (ws.foldl (dfsBody g fuel v) st) := by
  intro ws
  induction ws with
  | nil =>
    intro st _ hinv _ _ _ _
    exact { inv := hinv, markedMono := fun _ h => h,
            stackEq := fun _ => Iff.rfl,
            ordExt := ⟨[], by simp⟩,
            cycleMono := fun _ => rfl,
            cycleSound := fun h => Or.inl h,
            wsDone := by intro _ w hw2; simp at hw2 }
  | cons w ws' ih =>
    intro st hw hinv hvm hvs hreach hb
    rw [List.foldl_cons]
    have hwadj : w ∈ g.getAdjacencyList v := hw w (List.mem_cons_self _ _)
    have hw' : ∀ x, x ∈ ws' → x ∈ g.getAdjacencyList v :=
      fun x h => hw x (List.mem_cons_of_mem _ h)
    by_cases hcyc : st.cycle.isSome
    · -- a cycle is already recorded: the loop body skips this neighbor
      have hstne : st.cycle ≠ none := by
        intro h; rw [h] at hcyc; simp at hcyc
      have hbody : dfsBody g fuel v st w = st := by
        unfold dfsBody; simp [hcyc]
      rw [hbody]
      have Q := ih st hw' hinv hvm hvs hreach hb
      exact { inv := Q.inv, markedMono := Q.markedMono, stackEq := Q.stackEq,
              ordExt := Q.ordExt, cycleMono := Q.cycleMono, cycleSound := Q.cycleSound,
              wsDone := by
                intro hnone
                exact absurd (by rw [← Q.cycleMono hstne]; exact hnone) hstne }
    · have hstnone : st.cycle = none := Option.not_isSome_iff_eq_none.mp hcyc
      by_cases hwm : w ∈ st.marked
      · by_cases hws : w ∈ st.onStack
        · -- neighbor on the stack: record the cycle
          have hbody : dfsBody g fuel v st w =
              { st with cycle := some (buildCycle st.edgeTo v w) } := by
            unfold dfsBody; simp [hcyc, hwm, hws]
          rw [hbody]
          have hgc : g.hasDirectedCycle := ⟨v, w, hwadj, hreach w hws⟩
          have hinv' : SortInv g { st with cycle := some (buildCycle st.edgeTo v w) } :=
            { stackMarked := hinv.stackMarked, ordMarked := hinv.ordMarked,
              markedCover := hinv.markedCover, ordStackDisj := hinv.ordStackDisj,
              ordNodup := hinv.ordNodup,
              doneEdges := by intro h; simp at h,
              cycleShape := Or.inr ⟨w, (cycleChain st.edgeTo (st.edgeTo.length + 1) v w).reverse, rfl⟩ }
          have Q := ih _ hw' hinv' hvm hvs hreach hb
          have hsne : ({ st with cycle := some (buildCycle st.edgeTo v w) } : SortState).cycle ≠ none := by
            simp
          exact { inv := Q.inv, markedMono := Q.markedMono, stackEq := Q.stackEq,
                  ordExt := Q.ordExt,
                  cycleMono := fun h => absurd hstnone h,
                  cycleSound := fun _ => Or.inr hgc,
                  wsDone := by
                    intro hnone
                    rw [Q.cycleMono hsne] at hnone
                    exact absurd hnone hsne }
        · -- neighbor marked and finished: nothing happens
          have hbody : dfsBody g fuel v st w = st := by
            unfold dfsBody; simp [hcyc, hwm, hws]
          rw [hbody]
          have Q := ih st hw' hinv hvm hvs hreach hb
          have hword : w ∈ st.ordering := by
            rcases hinv.markedCover w hwm with h | h
            · exact absurd h hws
            · exact h
          exact { inv := Q.inv, markedMono := Q.markedMono, stackEq := Q.stackEq,
                  ordExt := Q.ordExt, cycleMono := Q.cycleMono, cycleSound := Q.cycleSound,
                  wsDone := by
                    intro hnone x hx
                    rcases List.mem_cons.mp hx with rfl | hx'
                    · obtain ⟨l2, h2⟩ := Q.ordExt
                      rw [h2]
                      exact List.mem_append_left _ hword
                    · exact Q.wsDone hnone x hx' }
      · -- unmarked neighbor: recurse
        have hbody : dfsBody g fuel v st w =
            dfsF g fuel w { st with edgeTo := setK st.edgeTo w v } := by
          unfold dfsBody; simp [hcyc, hwm]
        rw [hbody]
        have P := IH w { st with edgeTo := setK st.edgeTo w v }
          (hinv.withEdgeTo _) hwm (adj_mem_univ hwadj)
          (fun x hx => Reach.tail (hreach x hx) hwadj) hb
        have Q := ih (dfsF g fuel w { st with edgeTo := setK st.edgeTo w v }) hw'
          P.inv (P.markedMono v hvm) ((P.stackEq v).mpr hvs)
          (fun x hx => hreach x ((P.stackEq x).mp hx))
          (le_trans (bound_le_of_marked_mono P.markedMono) hb)
        refine { inv := Q.inv,
                 markedMono := fun x h => Q.markedMono x (P.markedMono x h),
                 stackEq := fun x => (Q.stackEq x).trans (P.stackEq x),
                 ordExt := ?_, cycleMono := ?_, cycleSound := ?_, wsDone := ?_ }
        · obtain ⟨l1, h1⟩ := P.ordExt
          obtain ⟨l2, h2⟩ := Q.ordExt
          exact ⟨l1 ++ l2, by rw [h2, h1, List.append_assoc]⟩
        · intro h
          have h1 := P.cycleMono h
          rw [Q.cycleMono (by rw [h1]; exact h), h1]
        · intro h
          rcases Q.cycleSound h with h' | h'
          · exact P.cycleSound h'
          · exact Or.inr h'
        · intro hnone x hx
          rcases List.mem_cons.mp hx with rfl | hx'
          · obtain ⟨l2, h2⟩ := Q.ordExt
            rw [h2]
            exact List.mem_append_left _ P.vOrd
          · exact Q.wsDone hnone x hx'

theorem dfs_spec (g : Graph) : ∀ (fuel : Nat) (v : String) (st : SortState),
    SortInv g st → v ∉ st.marked → v ∈ univList g →
    (∀ x, x ∈ st.onStack → Reach g x v) → bound g st ≤ fuel →
    DfsPost g v st (dfsF g fuel v st) := by
  intro fuel
  induction fuel with
  | zero =>
    intro v st _ hvm hvu _ hb
    exfalso
    have hmem : v ∈ (univList g).filter (fun x => decide (x ∉ st.marked)) :=
      List.mem_filter.mpr ⟨hvu, by simpa using hvm⟩
    have : 0 < bound g st := List.length_pos.mpr (List.ne_nil_of_mem hmem)
    omega
  | succ fuel ih =>
    intro v st hinv hvm hvu hreach hb
    rw [dfsF_succ]
    set st1 : SortState :=
      { st with marked := insertS st.marked v, onStack := insertS st.onStack v } with hst1
    have hvnotstack : v ∉ st.onStack := fun h => hvm (hinv.stackMarked v h)
    have hvnotord : v ∉ st.ordering := fun h => hvm (hinv.ordMarked v h)
    have hinv1 : SortInv g st1 :=
      { stackMarked := by
          intro x hx
          rcases mem_insertS.mp hx with rfl | hx'
          · exact mem_insertS.mpr (Or.inl rfl)
          · exact mem_insertS.mpr (Or.inr (hinv.stackMarked x hx'))
        ordMarked := fun x hx => mem_insertS.mpr (Or.inr (hinv.ordMarked x hx))
        markedCover := by
          intro x hx
          rcases mem_insertS.mp hx with rfl | hx'
          · exact Or.inl (mem_insertS.mpr (Or.inl rfl))
          · rcases hinv.markedCover x hx' with h | h
            · exact Or.inl (mem_insertS.mpr (Or.inr h))
            · exact Or.inr h
        ordStackDisj := by
          intro x hx hmem
          rcases mem_insertS.mp hmem with rfl | h
          · exact hvnotord hx
          · exact hinv.ordStackDisj x hx h
        ordNodup := hinv.ordNodup
        doneEdges := hinv.doneEdges
        cycleShape := hinv.cycleShape }
    have hb1 : bound g st1 ≤ fuel := by
      have hlt : bound g st1 < bound g st :=
        @bound_lt_of_newly_marked g st st1 v
          (fun x hx => mem_insertS.mpr (Or.inr hx)) hvu hvm (mem_insertS.mpr (Or.inl rfl))
      omega
    have Q := fold_spec g fuel v ih (g.getAdjacencyList v) st1 (fun _ h => h)
      hinv1 (mem_insertS.mpr (Or.inl rfl)) (mem_insertS.mpr (Or.inl rfl))
      (by
        intro x hx
        rcases mem_insertS.mp hx with rfl | hx'
        · exact Reach.refl x
        · exact hreach x hx')
      hb1
    set st2 := (g.getAdjacencyList v).foldl (dfsBody g fuel v) st1 with hst2
    have hvstack2 : v ∈ st2.onStack := (Q.stackEq v).mpr (mem_insertS.mpr (Or.inl rfl))
    have hvnotord2 : v ∉ st2.ordering := fun h => Q.inv.ordStackDisj v h hvstack2
    obtain ⟨lq, hlq⟩ := Q.ordExt
    have hordst1 : st1.ordering = st.ordering := rfl
    show DfsPost g v st
      { st2 with onStack := removeS st2.onStack v, ordering := st2.ordering ++ [v] }
    refine { inv := ?_,
             markedMono := fun x h => Q.markedMono x (mem_insertS.mpr (Or.inr h)),
             vMarked := Q.markedMono v (mem_insertS.mpr (Or.inl rfl)),
             stackEq := ?_, ordExt := ?_, vOrd := ?_, cycleMono := ?_, cycleSound := ?_ }
    · refine { stackMarked := ?_, ordMarked := ?_, markedCover := ?_,
               ordStackDisj := ?_, ordNodup := ?_, doneEdges := ?_, cycleShape := ?_ }
      · intro x hx
        exact Q.inv.stackMarked x (mem_removeS.mp hx).1
      · intro x hx
        rcases List.mem_append.mp hx with h | h
        · exact Q.inv.ordMarked x h
        · simp at h
          subst h
          exact Q.markedMono x (mem_insertS.mpr (Or.inl rfl))
      · intro x hx
        rcases Q.inv.markedCover x hx with h | h
        · by_cases hxv : x = v
          · subst hxv
            exact Or.inr (List.mem_append_right _ (by simp))
          · exact Or.inl (mem_removeS.mpr ⟨h, hxv⟩)
        · exact Or.inr (List.mem_append_left _ h)
      · intro x hx hmem
        have hx2 := (mem_removeS.mp hmem).1
        have hxne := (mem_removeS.mp hmem).2
        rcases List.mem_append.mp hx with h | h
        · exact Q.inv.ordStackDisj x h hx2
        · simp at h
          exact hxne h
      · rw [List.nodup_append]
        exact ⟨Q.inv.ordNodup, List.nodup_singleton v, by
          intro x hx hx'
          simp at hx'
          subst hx'
          exact hvnotord2 hx⟩
      · intro hcnone x hx w hwadj
        have hcnone2 : st2.cycle = none := hcnone
        rcases List.mem_append.mp hx with hxo | hxv
        · obtain ⟨hw1, hw2⟩ := Q.inv.doneEdges hcnone2 x hxo w hwadj
          refine ⟨List.mem_append_left _ hw1, ?_⟩
          rw [List.indexOf_append_of_mem hw1, List.indexOf_append_of_mem hxo]
          exact hw2
        · simp at hxv
          subst hxv
          have hword : w ∈ st2.ordering := Q.wsDone hcnone2 w hwadj
          refine ⟨List.mem_append_left _ hword, ?_⟩
          rw [List.indexOf_append_of_mem hword,
              List.indexOf_append_of_not_mem hvnotord2, List.indexOf_cons_self]
          have := List.indexOf_lt_length.mpr hword
          omega
      · exact Q.inv.cycleShape
    · intro x
      constructor
      · intro hx
        have hx2 := (mem_removeS.mp hx).1
        have hxne := (mem_removeS.mp hx).2
        rcases mem_insertS.mp ((Q.stackEq x).mp hx2) with rfl | h
        · exact absurd rfl hxne
        · exact h
      · intro hx
        have hxne : x ≠ v := fun h => hvnotstack (h ▸ hx)
        exact mem_removeS.mpr ⟨(Q.stackEq x).mpr (mem_insertS.mpr (Or.inr hx)), hxne⟩
    · exact ⟨lq ++ [v], by rw [hlq, hordst1, List.append_assoc]⟩
    · exact List.mem_append_right _ (by simp)
    · intro h
      exact Q.cycleMono h
    · intro h
      exact Q.cycleSound h


theorem run_eq (g : Graph) :
    TopologicalSorter.run g =
      g.getVertices.foldl (topBody g)
        { marked := [], onStack := [], edgeTo := [], cycle := none, ordering := [] } := rfl

theorem top_fold_spec (g : Graph) : ∀ (vs : List String) (st : SortState),
    SortInv g st → (∀ x, x ∉ st.onStack) → (∀ w, w ∈ vs → w ∈ g.vertices) →
    (st.cycle ≠ none → g.hasDirectedCycle) →
    SortInv g (vs.foldl (topBody g) st) ∧
    (∀ x, x ∉ (vs.foldl (topBody g) st).onStack) ∧
    (∀ x, x ∈ st.marked → x ∈ (vs.foldl (topBody g) st).marked) ∧
    (∀ v, v ∈ vs → v ∈ (vs.foldl (topBody g) st).marked) ∧
    ((vs.foldl (topBody g) st).cycle ≠ none → g.hasDirectedCycle) := by
  intro vs
  induction vs with
  | nil =>
    intro st hinv hstack _ hsound
    exact ⟨hinv, hstack, fun _ h => h, by simp, hsound⟩
  | cons v vs' ih =>
    intro st hinv hstack hvs hsound
    rw [List.foldl_cons]
    have hv : v ∈ g.vertices := hvs v (List.mem_cons_self _ _)
    have hvs' : ∀ w, w ∈ vs' → w ∈ g.vertices := fun w h => hvs w (List.mem_cons_of_mem _ h)
    by_cases hvm : v ∈ st.marked
    · have hbody : topBody g st v = st := by unfold topBody; simp [hvm]
      rw [hbody]
      obtain ⟨i1, i2, i3, i4, i5⟩ := ih st hinv hstack hvs' hsound
      exact ⟨i1, i2, i3, by
        intro x hx
        rcases List.mem_cons.mp hx with rfl | hx'
        · exact i3 x hvm
        · exact i4 x hx', i5⟩
    · have hbody : topBody g st v = dfsF g (univLen g) v st := by unfold topBody; simp [hvm]
      rw [hbody]
      have P := dfs_spec g (univLen g) v st hinv hvm
        (List.mem_append_left _ hv)
        (fun x hx => absurd hx (hstack x))
        (bound_le_univLen g st)
      obtain ⟨i1, i2, i3, i4, i5⟩ := ih (dfsF g (univLen g) v st) P.inv
        (fun x hx => hstack x ((P.stackEq x).mp hx))
        hvs'
        (by
          intro h
          rcases P.cycleSound h with h' | h'
          · exact hsound h'
          · exact h')
      refine ⟨i1, i2, fun x hx => i3 x (P.markedMono x hx), ?_, i5⟩
      intro x hx
      rcases List.mem_cons.mp hx with rfl | hx'
      · exact i3 x P.vMarked
      · exact i4 x hx'

/-- Summary facts about the completed sorter run. -/
theorem run_spec (g : Graph) :
    SortInv g (TopologicalSorter.run g) ∧
    (∀ x, x ∉ (TopologicalSorter.run g).onStack) ∧
    (∀ v, v ∈ g.vertices → v ∈ (TopologicalSorter.run g).marked) ∧
    ((TopologicalSorter.run g).cycle ≠ none → g.hasDirectedCycle) := by
  rw [run_eq]
  have hinv0 : SortInv g (⟨[], [], [], none, []⟩ : SortState) :=
    { stackMarked := by intro x hx; simp at hx
      ordMarked := by intro x hx; simp at hx
      markedCover := by intro x hx; simp at hx
      ordStackDisj := by intro x hx; simp at hx
      ordNodup := List.nodup_nil
      doneEdges := by intro _ x hx; simp at hx
      cycleShape := Or.inl rfl }
  obtain ⟨i1, i2, _, i4, i5⟩ := top_fold_spec g g.getVertices _ hinv0
    (by intro x hx; simp at hx) (fun w h => h) (by intro h; simp at h)
  exact ⟨i1, i2, i4, i5⟩

/-- Every vertex of the graph ends up in the post-order when no cycle was
found, with all of its out-neighbors strictly before it. -/
theorem run_topo {g : Graph} (hc : (TopologicalSorter.run g).cycle = none)
    {v w : String} (hv : v ∈ g.vertices) (he : g.hasEdge v w) :
    v ∈ (TopologicalSorter.run g).ordering ∧ w ∈ (TopologicalSorter.run g).ordering ∧
      (TopologicalSorter.run g).ordering.indexOf w <
        (TopologicalSorter.run g).ordering.indexOf v := by
  obtain ⟨hinv, hstack, hmarked, _⟩ := run_spec g
  have hvord : v ∈ (TopologicalSorter.run g).ordering := by
    rcases hinv.markedCover v (hmarked v hv) with h | h
    · exact absurd h (hstack v)
    · exact h
  obtain ⟨h1, h2⟩ := hinv.doneEdges hc v hvord w he
  exact ⟨hvord, h1, h2⟩

/-- If the run records no cycle and every edge source is a vertex, the graph
has no directed cycle: along any reachability path the position in the
post-order cannot increase, while an edge strictly decreases it. -/
theorem reach_indexOf_le {g : Graph} (hwf : ∀ a b, g.hasEdge a b → a ∈ g.vertices)
    (hc : (TopologicalSorter.run g).cycle = none) {a b : String} (hr : Reach g a b)
    (ha : a ∈ (TopologicalSorter.run g).ordering) :
    b ∈ (TopologicalSorter.run g).ordering ∧
      (TopologicalSorter.run g).ordering.indexOf b ≤
        (TopologicalSorter.run g).ordering.indexOf a := by
  induction hr with
  | refl => exact ⟨ha, le_refl _⟩
  | tail hab he ih =>
    obtain ⟨hbord, hble⟩ := ih
    obtain ⟨_, hcord, hclt⟩ := run_topo hc (hwf _ _ he) he
    exact ⟨hcord, le_trans (le_of_lt hclt) hble⟩

theorem no_cycle_of_none {g : Graph} (hwf : ∀ a b, g.hasEdge a b → a ∈ g.vertices)
    (hc : (TopologicalSorter.run g).cycle = none) : ¬ g.hasDirectedCycle := by
  rintro ⟨v, w, he, hr⟩
  obtain ⟨hvord, hword, hlt⟩ := run_topo hc (hwf _ _ he) he
  obtain ⟨_, hle⟩ := reach_indexOf_le hwf hc hr hword
  omega

/-- Cycle detection is exact on graphs whose edge sources are vertices. -/
theorem hasCycle_iff_directedCycle {g : Graph}
    (hwf : ∀ a b, g.hasEdge a b → a ∈ g.vertices) :
    TopologicalSorter.hasCycle (TopologicalSorter.run g) = true ↔ g.hasDirectedCycle := by
  obtain ⟨_, _, _, hsound⟩ := run_spec g
  constructor
  · intro h
    refine hsound ?_
    unfold TopologicalSorter.hasCycle at h
    intro hnone
    rw [hnone] at h
    simp at h
  · intro hgc
    by_contra h
    have hnone : (TopologicalSorter.run g).cycle = none := by
      unfold TopologicalSorter.hasCycle at h
      simpa using h
    exact no_cycle_of_none hwf hnone hgc

/-! ## Graph construction facts -/

theorem lookupAdj_setAdj (adj : List (String × List String)) (k : String) (l : List String)
    (key : String) :
    lookupAdj (setAdj adj k l) key = if k = key then some l else lookupAdj adj key := by
  induction adj with
  | nil =>
    unfold setAdj lookupAdj
    by_cases h : k = key <;> simp [h, lookupAdj]
  | cons p rest ih =>
    obtain ⟨k', v'⟩ := p
    unfold setAdj
    by_cases hk : k' = k
    · subst hk
      unfold lookupAdj
      by_cases h : k' = key <;> simp [h]
    · simp only [hk, if_false]
      unfold lookupAdj
      by_cases h : k' = key
      · subst h
        have : ¬ (k = k') := fun hh => hk hh.symm
        simp [this]
      · simp [h, ih]

theorem addVertex_adj (g : Graph) (v : String) : (g.addVertex v).adj = g.adj := by
  unfold Graph.addVertex
  split <;> rfl

theorem addVertex_vertices (g : Graph) (v : String) :
    (g.addVertex v).vertices = insertS g.vertices v := by
  unfold Graph.addVertex insertS
  split <;> rfl

theorem addEdge_vertices (g : Graph) (v w : String) :
    (g.addEdge v w).vertices = g.vertices := by
  unfold Graph.addEdge
  cases lookupAdj g.adj v with
  | none => rfl
  | some l => dsimp only; split <;> rfl

theorem hasEdge_addEdge {g : Graph} {v w a b : String} :
    (g.addEdge v w).hasEdge a b ↔ (a = v ∧ b = w) ∨ g.hasEdge a b := by
  unfold Graph.addEdge Graph.hasEdge Graph.getAdjacencyList
  cases hl : lookupAdj g.adj v with
  | none =>
    dsimp only
    rw [lookupAdj_setAdj]
    by_cases hav : v = a
    · subst hav
      rw [hl]
      simp
    · have : a ≠ v := fun h => hav h.symm
      simp [hav, this]
  | some l =>
    dsimp only
    by_cases hwl : w ∈ l
    · simp only [hwl, if_true]
      by_cases hav : a = v
      · subst hav
        rw [hl]
        constructor
        · intro h; exact Or.inr h
        · rintro (⟨_, rfl⟩ | h)
          · simpa using hwl
          · exact h
      · simp [hav]
    · simp only [hwl, if_false]
      rw [lookupAdj_setAdj]
      by_cases hav : v = a
      · subst hav
        rw [if_pos rfl, hl]
        simp only [Option.getD_some, List.mem_append, List.mem_singleton]
        constructor
        · rintro (h | rfl)
          · exact Or.inr h
          · exact Or.inl ⟨trivial, rfl⟩
        · rintro (⟨_, rfl⟩ | h)
          · exact Or.inr rfl
          · exact Or.inl h
      · have : a ≠ v := fun h => hav h.symm
        simp [hav, this]


theorem graphWF_empty : GraphWF Graph.empty := by
  intro a b h
  exact absurd h (by simp [Graph.hasEdge, Graph.getAdjacencyList, Graph.empty, lookupAdj])

theorem graphWF_addVertex {g : Graph} (h : GraphWF g) (v : String) :
    GraphWF (g.addVertex v) := by
  intro a b he
  have he' : g.hasEdge a b := by
    unfold Graph.hasEdge Graph.getAdjacencyList at he ⊢
    rwa [addVertex_adj] at he
  rw [addVertex_vertices]
  exact mem_insertS.mpr (Or.inr (h a b he'))

theorem graphWF_addEdge {g : Graph} (h : GraphWF g) {v : String} (w : String)
    (hv : v ∈ g.vertices) : GraphWF (g.addEdge v w) := by
  intro a b he
  rw [addEdge_vertices]
  rcases hasEdge_addEdge.mp he with ⟨rfl, _⟩ | he'
  · exact hv
  · exact h a b he'

theorem addVertex_vertices_mono {g : Graph} {x : String} (h : x ∈ g.vertices) (v : String) :
    x ∈ (g.addVertex v).vertices := by
  rw [addVertex_vertices]
  exact mem_insertS.mpr (Or.inr h)

theorem buildGraph_wf (input : List (String × String)) : GraphWF (buildGraph input) := by
  unfold buildGraph
  have main : ∀ (l : List (String × String)) (g : Graph), GraphWF g →
      GraphWF (l.foldl (fun g p =>
        let g1 := g.addVertex p.1
        (extractTokens p.2).foldl (fun g2 d => (g2.addVertex d).addEdge p.1 d) g1) g) := by
    intro l
    induction l with
    | nil => intro g hg; exact hg
    | cons p rest ih =>
      intro g hg
      rw [List.foldl_cons]
      refine ih _ ?_
      have inner : ∀ (ds : List String) (g2 : Graph), GraphWF g2 → p.1 ∈ g2.vertices →
          GraphWF (ds.foldl (fun g2 d => (g2.addVertex d).addEdge p.1 d) g2) := by
        intro ds
        induction ds with
        | nil => intro g2 hg2 _; exact hg2
        | cons d rest2 ih2 =>
          intro g2 hg2 hp
          rw [List.foldl_cons]
          refine ih2 _ ?_ ?_
          · refine graphWF_addEdge (graphWF_addVertex hg2 d) d ?_
            exact addVertex_vertices_mono hp d
          · rw [addEdge_vertices]
            exact addVertex_vertices_mono hp d
      refine inner _ _ (graphWF_addVertex hg p.1) ?_
      rw [addVertex_vertices]
      exact mem_insertS.mpr (Or.inl rfl)
  exact main input Graph.empty graphWF_empty

/-! ## Scanner lemmas -/

theorem word_of_upper {c : Char} (h : c.isUpper = true) : isWordChar c = true := by
  unfold isWordChar
  rw [h]
  rfl

theorem length_dropWhile_le (p : Char → Bool) (l : List Char) :
    (l.dropWhile p).length ≤ l.length := by
  induction l with
  | nil => simp
  | cons c cs ih =>
    by_cases h : p c = true
    · rw [List.dropWhile_cons_of_pos h]
      exact le_trans ih (Nat.le_succ _)
    · rw [List.dropWhile_cons_of_neg (by simpa using h)]

theorem tokF_fuel_irrel : ∀ (f1 : Nat), ∀ (f2 : Nat) (p : Bool) (s : List Char),
    s.length < f1 → s.length < f2 → tokF f1 p s = tokF f2 p s := by
  intro f1
  induction f1 with
  | zero => intro f2 p s h1 _; omega
  | succ f1 ih =>
    intro f2 p s _ h2
    cases f2 with
    | zero => omega
    | succ f2 =>
      cases s with
      | nil => rfl
      | cons c cs =>
        show tokF (f1 + 1) p (c :: cs) = tokF (f2 + 1) p (c :: cs)
        unfold tokF
        dsimp only
        rename_i h1
        simp only [List.length_cons] at h1 h2
        by_cases hg : ¬ p ∧ c.isUpper
        · simp only [hg, if_true]
          have hrest : ((c :: cs).dropWhile isWordChar).length ≤ cs.length := by
            rw [List.dropWhile_cons_of_pos (word_of_upper hg.2)]
            exact length_dropWhile_le _ _
          by_cases hm : ((c :: cs).takeWhile isWordChar).all Char.isUpper = true ∧
              ((c :: cs).dropWhile isWordChar).head? ≠ some '('
          · rw [if_pos hm, if_pos hm, ih f2 true _ (by omega) (by omega)]
            simp
          · rw [if_neg hm, if_neg hm, ih f2 (isWordChar c) cs (by omega) (by omega)]
        · simp only [hg, if_false]
          rw [ih f2 (isWordChar c) cs (by omega) (by omega)]

theorem replF_fuel_irrel (f : List Char → List Char) :
    ∀ (f1 : Nat), ∀ (f2 : Nat) (p : Bool) (s : List Char),
    s.length < f1 → s.length < f2 → replF f f1 p s = replF f f2 p s := by
  intro f1
  induction f1 with
  | zero => intro f2 p s h1 _; omega
  | succ f1 ih =>
    intro f2 p s _ h2
    cases f2 with
    | zero => omega
    | succ f2 =>
      cases s with
      | nil => rfl
      | cons c cs =>
        show replF f (f1 + 1) p (c :: cs) = replF f (f2 + 1) p (c :: cs)
        unfold replF
        dsimp only
        rename_i h1
        simp only [List.length_cons] at h1 h2
        by_cases hg : ¬ p ∧ c.isUpper
        · simp only [hg, if_true]
          have hrest : ((c :: cs).dropWhile isWordChar).length ≤ cs.length := by
            rw [List.dropWhile_cons_of_pos (word_of_upper hg.2)]
            exact length_dropWhile_le _ _
          by_cases hm : ((c :: cs).takeWhile isWordChar).all Char.isUpper = true ∧
              ((c :: cs).dropWhile isWordChar).head? ≠ some '('
          · rw [if_pos hm, if_pos hm, ih f2 true _ (by omega) (by omega)]
            simp
          · rw [if_neg hm, if_neg hm, ih f2 (isWordChar c) cs (by omega) (by omega)]
        · simp only [hg, if_false]
          rw [ih f2 (isWordChar c) cs (by omega) (by omega)]


theorem extractTokens_eq (s : String) : extractTokens s = (toksL false s.data).map String.mk := rfl

theorem replaceTokens_eq (f : String → String) (s : String) :
    replaceTokens f s = String.mk (replL (fun l => (f (String.mk l)).data) false s.data) := rfl

theorem toksL_nil (p : Bool) : toksL p [] = [] := rfl

theorem toksL_cons (p : Bool) (c : Char) (cs : List Char) :
    toksL p (c :: cs) =
      if ¬ p ∧ c.isUpper then
        (if ((c :: cs).takeWhile isWordChar).all Char.isUpper ∧
            ((c :: cs).dropWhile isWordChar).head? ≠ some '(' then
          (c :: cs).takeWhile isWordChar :: toksL true ((c :: cs).dropWhile isWordChar)
        else toksL (isWordChar c) cs)
      else toksL (isWordChar c) cs := by
  show tokF (cs.length + 1 + 1) p (c :: cs) = _
  unfold tokF
  dsimp only
  by_cases hg : ¬ p ∧ c.isUpper
  · rw [if_pos hg, if_pos hg]
    by_cases hm : ((c :: cs).takeWhile isWordChar).all Char.isUpper = true ∧
        ((c :: cs).dropWhile isWordChar).head? ≠ some '('
    · rw [if_pos hm, if_pos hm]
      have hrest : ((c :: cs).dropWhile isWordChar).length ≤ cs.length := by
        rw [List.dropWhile_cons_of_pos (word_of_upper hg.2)]
        exact length_dropWhile_le _ _
      rw [tokF_fuel_irrel (cs.length + 1)
        (((c :: cs).dropWhile isWordChar).length + 1) true _ (by omega) (by omega)]
      rfl
    · rw [if_neg hm, if_neg hm]
      rfl
  · rw [if_neg hg, if_neg hg]
    rfl

theorem replL_nil (f : List Char → List Char) (p : Bool) : replL f p [] = [] := rfl

theorem replL_cons (f : List Char → List Char) (p : Bool) (c : Char) (cs : List Char) :
    replL f p (c :: cs) =
      if ¬ p ∧ c.isUpper then
        (if ((c :: cs).takeWhile isWordChar).all Char.isUpper ∧
            ((c :: cs).dropWhile isWordChar).head? ≠ some '(' then
          f ((c :: cs).takeWhile isWordChar) ++ replL f true ((c :: cs).dropWhile isWordChar)
        else c :: replL f (isWordChar c) cs)
      else c :: replL f (isWordChar c) cs := by
  show replF f (cs.length + 1 + 1) p (c :: cs) = _
  unfold replF
  dsimp only
  by_cases hg : ¬ p ∧ c.isUpper
  · rw [if_pos hg, if_pos hg]
    by_cases hm : ((c :: cs).takeWhile isWordChar).all Char.isUpper = true ∧
        ((c :: cs).dropWhile isWordChar).head? ≠ some '('
    · rw [if_pos hm, if_pos hm]
      have hrest : ((c :: cs).dropWhile isWordChar).length ≤ cs.length := by
        rw [List.dropWhile_cons_of_pos (word_of_upper hg.2)]
        exact length_dropWhile_le _ _
      rw [replF_fuel_irrel f (cs.length + 1)
        (((c :: cs).dropWhile isWordChar).length + 1) true _ (by omega) (by omega)]
      rfl
    · rw [if_neg hm, if_neg hm]
      rfl
  · rw [if_neg hg, if_neg hg]
    rfl

/-- With a non-word (or absent) first character, the scanner state does not
matter. -/
theorem toksL_state (p q : Bool) (s : List Char)
    (h : ∀ c, s.head? = some c → isWordChar c = false) : toksL p s = toksL q s := by
  cases s with
  | nil => rfl
  | cons c cs =>
    have hw : isWordChar c = false := h c rfl
    have hu : c.isUpper = false := by
      cases hup : c.isUpper
      · rfl
      · rw [word_of_upper hup] at hw; cases hw
    rw [toksL_cons, toksL_cons]
    simp [hu]

theorem replL_state (f : List Char → List Char) (p q : Bool) (s : List Char)
    (h : ∀ c, s.head? = some c → isWordChar c = false) : replL f p s = replL f q s := by
  cases s with
  | nil => rfl
  | cons c cs =>
    have hw : isWordChar c = false := h c rfl
    have hu : c.isUpper = false := by
      cases hup : c.isUpper
      · rfl
      · rw [word_of_upper hup] at hw; cases hw
    rw [replL_cons, replL_cons]
    simp [hu]

/-- Scanning in state `true` walks over word characters without matching. -/
theorem toksL_skip_run : ∀ (l X : List Char), l.all isWordChar = true →
    toksL true (l ++ X) = toksL true X := by
  intro l
  induction l with
  | nil => intro X _; rfl
  | cons c l' ih =>
    intro X hall
    simp only [List.all_cons, Bool.and_eq_true] at hall
    rw [List.cons_append, toksL_cons]
    simp only [not_true, false_and, if_false]
    rw [hall.1]
    exact ih X hall.2

theorem replL_skip_run (f : List Char → List Char) : ∀ (l X : List Char),
    l.all isWordChar = true → replL f true (l ++ X) = l ++ replL f true X := by
  intro l
  induction l with
  | nil => intro X _; rfl
  | cons c l' ih =>
    intro X hall
    simp only [List.all_cons, Bool.and_eq_true] at hall
    rw [List.cons_append, replL_cons]
    simp only [not_true, false_and, if_false]
    rw [hall.1, List.cons_append]
    rw [ih X hall.2]

/-- `takeWhile`/`dropWhile` do not cross into a second part that starts with
a non-word character. -/
theorem while_append_nonword : ∀ (a b : List Char),
    (∀ c, b.head? = some c → isWordChar c = false) →
    (a ++ b).takeWhile isWordChar = a.takeWhile isWordChar ∧
    (a ++ b).dropWhile isWordChar = a.dropWhile isWordChar ++ b := by
  intro a
  induction a with
  | nil =>
    intro b hb
    constructor
    · cases b with
      | nil => rfl
      | cons c cs =>
        simp only [List.nil_append, List.takeWhile_nil]
        rw [List.takeWhile_cons_of_neg (by simp [hb c rfl])]
    · cases b with
      | nil => rfl
      | cons c cs =>
        simp only [List.nil_append, List.dropWhile_nil]
        rw [List.dropWhile_cons_of_neg (by simp [hb c rfl])]
  | cons x a' ih =>
    intro b hb
    obtain ⟨ih1, ih2⟩ := ih b hb
    by_cases hx : isWordChar x = true
    · rw [List.cons_append, List.takeWhile_cons_of_pos hx, List.takeWhile_cons_of_pos hx,
        List.dropWhile_cons_of_pos hx, List.dropWhile_cons_of_pos hx]
      exact ⟨by rw [ih1], ih2⟩
    · rw [List.cons_append, List.takeWhile_cons_of_neg (by simpa using hx),
        List.takeWhile_cons_of_neg (by simpa using hx),
        List.dropWhile_cons_of_neg (by simpa using hx),
        List.dropWhile_cons_of_neg (by simpa using hx)]
      simp

theorem head_dropWhile_nonword : ∀ (l : List Char) (c : Char),
    (l.dropWhile isWordChar).head? = some c → isWordChar c = false := by
  intro l
  induction l with
  | nil => intro c h; simp at h
  | cons x xs ih =>
    intro c h
    by_cases hx : isWordChar x = true
    · rw [List.dropWhile_cons_of_pos hx] at h
      exact ih c h
    · rw [List.dropWhile_cons_of_neg (by simpa using hx)] at h
      simp at h
      subst h
      simpa using hx


theorem toksL_eq_specRuns_aux : ∀ (n : Nat) (s : List Char), s.length ≤ n →
    toksL false s = ((specWordRuns s).filter
      (fun p => decide (p.1.all Char.isUpper = true ∧ p.2 ≠ some '('))).map Prod.fst := by
  intro n
  induction n with
  | zero =>
    intro s h
    have : s = [] := List.eq_nil_of_length_eq_zero (by omega)
    subst this
    rw [specWordRuns]
    rfl
  | succ n ih =>
    intro s h
    cases s with
    | nil => rw [specWordRuns]; rfl
    | cons c cs =>
      simp only [List.length_cons] at h
      have hcs : cs.length ≤ n := by omega
      by_cases hw : isWordChar c = true
      · have hrest : (c :: cs).dropWhile isWordChar = cs.dropWhile isWordChar :=
          List.dropWhile_cons_of_pos hw
        have hrlen : ((c :: cs).dropWhile isWordChar).length ≤ n := by
          rw [hrest]
          exact le_trans (length_dropWhile_le _ _) hcs
        have hrhead : ∀ c', ((c :: cs).dropWhile isWordChar).head? = some c' →
            isWordChar c' = false := head_dropWhile_nonword (c :: cs)
        have hskip : toksL true cs = toksL false ((c :: cs).dropWhile isWordChar) := by
          conv =>
            lhs
            rw [← List.takeWhile_append_dropWhile isWordChar cs]
          rw [toksL_skip_run _ _ List.all_takeWhile, hrest]
          exact toksL_state true false _ (by rw [← hrest]; exact hrhead)
        rw [specWordRuns]
        rw [if_pos hw]
        by_cases hu : c.isUpper = true
        · rw [toksL_cons]
          rw [if_pos ⟨by simp, hu⟩]
          by_cases hm : ((c :: cs).takeWhile isWordChar).all Char.isUpper = true ∧
              ((c :: cs).dropWhile isWordChar).head? ≠ some '('
          · rw [if_pos hm]
            rw [List.filter_cons_of_pos (by simpa using hm)]
            simp only [List.map_cons]
            rw [toksL_state true false _ hrhead, ih _ hrlen]
          · rw [if_neg hm]
            rw [List.filter_cons_of_neg (by simpa using hm)]
            rw [word_of_upper hu, hskip, ih _ hrlen]
        · rw [toksL_cons]
          rw [if_neg (by simp [hu])]
          have hnotall : ((c :: cs).takeWhile isWordChar).all Char.isUpper = false := by
            rw [List.takeWhile_cons_of_pos hw]
            simp [hu]
          rw [List.filter_cons_of_neg (by simp [hnotall])]
          rw [hw, hskip, ih _ hrlen]
      · have hu : c.isUpper = false := by
          cases hup : c.isUpper
          · rfl
          · rw [word_of_upper hup] at hw; simp at hw
        rw [toksL_cons]
        rw [if_neg (by simp [hu])]
        rw [specWordRuns]
        rw [if_neg (by simpa using hw)]
        have hwf : isWordChar c = false := by simpa using hw
        rw [hwf]
        exact ih cs hcs

/-- The regex scan extracts exactly the spec's tokens. -/
theorem extractTokens_eq_spec (s : String) : extractTokens s = specVarTokens s := by
  rw [extractTokens_eq, toksL_eq_specRuns_aux s.data.length s.data (le_refl _)]
  unfold specVarTokens
  rw [List.map_map]
  rfl

theorem replL_eq_specSubst_aux : ∀ (n : Nat) (f : List Char → List Char) (s : List Char),
    s.length ≤ n → replL f false s = specSubst f s := by
  intro n
  induction n with
  | zero =>
    intro f s h
    have : s = [] := List.eq_nil_of_length_eq_zero (by omega)
    subst this
    rw [specSubst]
    rfl
  | succ n ih =>
    intro f s h
    cases s with
    | nil => rw [specSubst]; rfl
    | cons c cs =>
      simp only [List.length_cons] at h
      have hcs : cs.length ≤ n := by omega
      by_cases hw : isWordChar c = true
      · have hrest : (c :: cs).dropWhile isWordChar = cs.dropWhile isWordChar :=
          List.dropWhile_cons_of_pos hw
        have hrlen : ((c :: cs).dropWhile isWordChar).length ≤ n := by
          rw [hrest]
          exact le_trans (length_dropWhile_le _ _) hcs
        have hrhead : ∀ c', ((c :: cs).dropWhile isWordChar).head? = some c' →
            isWordChar c' = false := head_dropWhile_nonword (c :: cs)
        have hskip : replL f true cs =
            cs.takeWhile isWordChar ++ specSubst f ((c :: cs).dropWhile isWordChar) := by
          conv =>
            lhs
            rw [← List.takeWhile_append_dropWhile isWordChar cs]
          rw [replL_skip_run f _ _ List.all_takeWhile]
          rw [replL_state f true false _ (fun c' hc' => hrhead c' (by rw [hrest]; exact hc'))]
          rw [ih f _ (le_trans (length_dropWhile_le _ _) hcs), hrest]
        have htake : (c :: cs).takeWhile isWordChar = c :: cs.takeWhile isWordChar :=
          List.takeWhile_cons_of_pos hw
        rw [specSubst]
        rw [if_pos hw]
        by_cases hu : c.isUpper = true
        · rw [replL_cons]
          rw [if_pos ⟨by simp, hu⟩]
          by_cases hm : ((c :: cs).takeWhile isWordChar).all Char.isUpper = true ∧
              ((c :: cs).dropWhile isWordChar).head? ≠ some '('
          · rw [if_pos hm, if_pos hm]
            rw [replL_state f true false _ hrhead, ih f _ hrlen]
          · rw [if_neg hm, if_neg hm]
            rw [word_of_upper hu, hskip, htake, List.cons_append]
        · rw [replL_cons]
          rw [if_neg (by simp [hu])]
          have hnotall : ((c :: cs).takeWhile isWordChar).all Char.isUpper = false := by
            rw [htake]
            simp [hu]
          rw [if_neg (by simp [hnotall])]
          rw [hw, hskip, htake, List.cons_append]
      · have hu : c.isUpper = false := by
          cases hup : c.isUpper
          · rfl
          · rw [word_of_upper hup] at hw; simp at hw
        rw [replL_cons]
        rw [if_neg (by simp [hu])]
        rw [specSubst]
        rw [if_neg (by simpa using hw)]
        have hwf : isWordChar c = false := by simpa using hw
        rw [hwf]
        rw [ih f cs hcs]

/-- The regex-driven replacement applies the spec's token rule. -/
theorem replaceTokens_eq_spec (f : String → String) (s : String) :
    replaceTokens f s = specReplaceTokens f s := by
  rw [replaceTokens_eq,
    replL_eq_specSubst_aux s.data.length (fun l => (f (String.mk l)).data) s.data (le_refl _)]
  rfl

theorem dropWhile_eq_nil_of_all (l : List Char) (h : l.all isWordChar = true) :
    l.dropWhile isWordChar = [] := by
  induction l with
  | nil => rfl
  | cons c cs ih =>
    simp only [List.all_cons, Bool.and_eq_true] at h
    rw [List.dropWhile_cons_of_pos h.1]
    exact ih h.2

theorem replL_head_nonword (f : List Char → List Char) (q : Bool) (r : Char) (rs : List Char)
    (h : isWordChar r = false) :
    replL f q (r :: rs) = r :: replL f (isWordChar r) rs := by
  rw [replL_cons]
  have hu : r.isUpper = false := by
    cases hup : r.isUpper
    · rfl
    · rw [word_of_upper hup] at h; cases h
  rw [if_neg (by simp [hu])]

/-- Appending a part that starts with a non-word character on the right of a
token-free part keeps the whole token-free. -/
theorem toksL_append_empty : ∀ (n : Nat) (a : List Char) (p : Bool) (b : List Char),
    a.length ≤ n →
    toksL p a = [] →
    (∀ c, b.head? = some c → isWordChar c = false) →
    toksL false b = [] →
    toksL p (a ++ b) = [] := by
  intro n
  induction n with
  | zero =>
    intro a p b ha hpa hb hfb
    have : a = [] := List.eq_nil_of_length_eq_zero (by omega)
    subst this
    rw [List.nil_append, toksL_state p false b hb]
    exact hfb
  | succ n ih =>
    intro a p b ha hpa hb hfb
    cases a with
    | nil =>
      rw [List.nil_append, toksL_state p false b hb]
      exact hfb
    | cons c cs =>
      simp only [List.length_cons] at ha
      have hcs : cs.length ≤ n := by omega
      obtain ⟨htake, hdrop⟩ := while_append_nonword (c :: cs) b hb
      rw [List.cons_append, toksL_cons]
      rw [toksL_cons] at hpa
      rw [show c :: (cs ++ b) = (c :: cs) ++ b from rfl, htake, hdrop]
      by_cases hg : ¬ p ∧ c.isUpper
      · rw [if_pos hg]
        rw [if_pos hg] at hpa
        by_cases hma : ((c :: cs).takeWhile isWordChar).all Char.isUpper = true ∧
            ((c :: cs).dropWhile isWordChar).head? ≠ some '('
        · rw [if_pos hma] at hpa
          cases hpa
        · rw [if_neg hma] at hpa
          have hmctx : ¬ (((c :: cs).takeWhile isWordChar).all Char.isUpper = true ∧
              ((c :: cs).dropWhile isWordChar ++ b).head? ≠ some '(') := by
            intro hctx
            refine hma ⟨hctx.1, ?_⟩
            cases hd : (c :: cs).dropWhile isWordChar with
            | nil => simp
            | cons d ds =>
              rw [hd] at hctx
              simpa using hctx.2
          rw [if_neg hmctx]
          exact ih cs (isWordChar c) b hcs hpa hb hfb
      · rw [if_neg hg]
        rw [if_neg hg] at hpa
        exact ih cs (isWordChar c) b hcs hpa hb hfb

theorem takeWhile_eq_self_of_all (l : List Char) (h : l.all isWordChar = true) :
    l.takeWhile isWordChar = l := by
  induction l with
  | nil => rfl
  | cons c cs ih =>
    simp only [List.all_cons, Bool.and_eq_true] at h
    rw [List.takeWhile_cons_of_pos h.1, ih h.2]

/-- Replacing every token of a string by token-free text yields a
token-free string. -/
theorem toksL_replL_empty : ∀ (n : Nat) (f : List Char → List Char) (p : Bool) (s : List Char),
    s.length ≤ n →
    (∀ t, t ∈ toksL p s → toksL false (f t) = []) →
    toksL p (replL f p s) = [] := by
  intro n
  induction n with
  | zero =>
    intro f p s hs _
    have : s = [] := List.eq_nil_of_length_eq_zero (by omega)
    subst this
    rfl
  | succ n ih =>
    intro f p s hs hf
    cases s with
    | nil => rfl
    | cons c cs =>
      simp only [List.length_cons] at hs
      have hcs : cs.length ≤ n := by omega
      by_cases hg : ¬ p ∧ c.isUpper
      · have hp : p = false := by
          cases p
          · rfl
          · simp at hg
        subst hp
        have hwc : isWordChar c = true := word_of_upper hg.2
        rw [replL_cons, if_pos hg]
        by_cases hm : ((c :: cs).takeWhile isWordChar).all Char.isUpper = true ∧
            ((c :: cs).dropWhile isWordChar).head? ≠ some '('
        · rw [if_pos hm]
          have hrhead : ∀ c', ((c :: cs).dropWhile isWordChar).head? = some c' →
              isWordChar c' = false := head_dropWhile_nonword (c :: cs)
          have hrlen : ((c :: cs).dropWhile isWordChar).length ≤ n := by
            rw [List.dropWhile_cons_of_pos hwc]
            exact le_trans (length_dropWhile_le _ _) hcs
          have htoks : toksL false (c :: cs) =
              (c :: cs).takeWhile isWordChar :: toksL true ((c :: cs).dropWhile isWordChar) := by
            rw [toksL_cons, if_pos hg, if_pos hm]
          have hfrun : toksL false (f ((c :: cs).takeWhile isWordChar)) = [] :=
            hf _ (by rw [htoks]; exact List.mem_cons_self _ _)
          have hbhead : ∀ c', (replL f true ((c :: cs).dropWhile isWordChar)).head? = some c' →
              isWordChar c' = false := by
            intro c' hc'
            cases hd : (c :: cs).dropWhile isWordChar with
            | nil => rw [hd] at hc'; simp [replL_nil] at hc'
            | cons r rs =>
              have hr : isWordChar r = false := hrhead r (by rw [hd]; rfl)
              rw [hd, replL_head_nonword f true r rs hr] at hc'
              simp at hc'
              subst hc'
              exact hr
          have hbtoks : toksL false (replL f true ((c :: cs).dropWhile isWordChar)) = [] := by
            rw [toksL_state false true _ hbhead]
            exact ih f true _ hrlen
              (fun t ht => hf t (by rw [htoks]; exact List.mem_cons_of_mem _ ht))
          exact toksL_append_empty (f ((c :: cs).takeWhile isWordChar)).length _ false _
            (le_refl _) hfrun hbhead hbtoks
        · rw [if_neg hm, hwc]
          have hdphead : ∀ c', (cs.dropWhile isWordChar).head? = some c' →
              isWordChar c' = false := head_dropWhile_nonword cs
          have hdplen : (cs.dropWhile isWordChar).length ≤ n :=
            le_trans (length_dropWhile_le _ _) hcs
          have hRhead : ∀ c', (replL f true (cs.dropWhile isWordChar)).head? = some c' →
              isWordChar c' = false := by
            intro c' hc'
            cases hd : cs.dropWhile isWordChar with
            | nil => rw [hd] at hc'; simp [replL_nil] at hc'
            | cons r rs =>
              have hr : isWordChar r = false := hdphead r (by rw [hd]; rfl)
              rw [hd, replL_head_nonword f true r rs hr] at hc'
              simp at hc'
              subst hc'
              exact hr
          have hsplit : replL f true cs =
              cs.takeWhile isWordChar ++ replL f true (cs.dropWhile isWordChar) := by
            conv =>
              lhs
              rw [← List.takeWhile_append_dropWhile isWordChar cs]
            exact replL_skip_run f _ _ List.all_takeWhile
          rw [hsplit]
          obtain ⟨htw, hdw⟩ := while_append_nonword (cs.takeWhile isWordChar)
            (replL f true (cs.dropWhile isWordChar)) hRhead
          rw [toksL_cons]
          have htwcs : (c :: cs).takeWhile isWordChar = c :: cs.takeWhile isWordChar :=
            List.takeWhile_cons_of_pos hwc
          have hrun : (c :: (cs.takeWhile isWordChar ++
              replL f true (cs.dropWhile isWordChar))).takeWhile isWordChar =
              (c :: cs).takeWhile isWordChar := by
            rw [List.takeWhile_cons_of_pos hwc, htw,
              takeWhile_eq_self_of_all _ List.all_takeWhile, htwcs]
          have hdrop : (c :: (cs.takeWhile isWordChar ++
              replL f true (cs.dropWhile isWordChar))).dropWhile isWordChar =
              replL f true (cs.dropWhile isWordChar) := by
            rw [List.dropWhile_cons_of_pos hwc, hdw,
              dropWhile_eq_nil_of_all _ List.all_takeWhile, List.nil_append]
          have hheads : (replL f true (cs.dropWhile isWordChar)).head? =
              (cs.dropWhile isWordChar).head? := by
            cases hd : cs.dropWhile isWordChar with
            | nil => rfl
            | cons r rs =>
              have hr : isWordChar r = false := hdphead r (by rw [hd]; rfl)
              rw [replL_head_nonword f true r rs hr]
              rfl
          have hmctx : ¬ (((c :: (cs.takeWhile isWordChar ++
              replL f true (cs.dropWhile isWordChar))).takeWhile isWordChar).all
                Char.isUpper = true ∧
              ((c :: (cs.takeWhile isWordChar ++
              replL f true (cs.dropWhile isWordChar))).dropWhile isWordChar).head? ≠
                some '(') := by
            intro hctx
            refine hm ⟨by rw [← hrun]; exact hctx.1, ?_⟩
            rw [List.dropWhile_cons_of_pos hwc, ← hheads, ← hdrop]
            exact hctx.2
          rw [if_pos hg, if_neg hmctx, hwc]
          rw [toksL_skip_run _ _ List.all_takeWhile]
          have htoks2 : toksL false (c :: cs) = toksL true (cs.dropWhile isWordChar) := by
            rw [toksL_cons, if_pos hg, if_neg hm, hwc]
            conv =>
              lhs
              rw [← List.takeWhile_append_dropWhile isWordChar cs]
            exact toksL_skip_run _ _ List.all_takeWhile
          exact ih f true _ hdplen (fun t ht => hf t (by rw [htoks2]; exact ht))
      · rw [replL_cons, if_neg hg, toksL_cons, if_neg hg]
        exact ih f (isWordChar c) cs hcs
          (fun t ht => hf t (by rw [toksL_cons, if_neg hg]; exact ht))

theorem lookupStr_mem {acc : List (String × String)} {t v : String}
    (h : lookupStr acc t = some v) : (t, v) ∈ acc := by
  induction acc with
  | nil => simp [lookupStr] at h
  | cons p rest ih =>
    obtain ⟨k, u⟩ := p
    unfold lookupStr at h
    by_cases hk : k = t
    · subst hk
      simp at h
      subst h
      exact List.mem_cons_self _ _
    · simp [hk] at h
      exact List.mem_cons_of_mem _ (ih h)

theorem extractTokens_empty_iff (s : String) :
    extractTokens s = [] ↔ toksL false s.data = [] := by
  rw [extractTokens_eq]
  exact List.map_eq_nil_iff

/-- String-level form of `toksL_replL_empty`. -/
theorem extractTokens_replaceTokens_empty (f : String → String) (s : String)
    (h : ∀ t, t ∈ extractTokens s → extractTokens (f t) = []) :
    extractTokens (replaceTokens f s) = [] := by
  rw [replaceTokens_eq]
  rw [extractTokens_empty_iff]
  show toksL false (replL (fun l => (f (String.mk l)).data) false s.data) = []
  refine toksL_replL_empty s.data.length _ false s.data (le_refl _) ?_
  intro t ht
  have hmem : String.mk t ∈ extractTokens s := by
    rw [extractTokens_eq]
    exact List.mem_map_of_mem String.mk ht
  have := h (String.mk t) hmem
  rw [extractTokens_empty_iff] at this
  exact this

theorem expandLoop_token_free (input : List (String × String)) :
    ∀ (names : List String) (acc m : List (String × String)),
    (∀ pr, pr ∈ acc → extractTokens pr.2 = []) →
    expandLoop input names acc = .ok m →
    ∀ pr, pr ∈ m → extractTokens pr.2 = [] := by
  intro names
  induction names with
  | nil =>
    intro acc m hacc hok
    unfold expandLoop at hok
    simp at hok
    subst hok
    exact hacc
  | cons name rest ih =>
    intro acc m hacc hok
    unfold expandLoop at hok
    cases hl : lookupStr input name with
    | none => rw [hl] at hok; cases hok
    | some raw =>
      rw [hl] at hok
      refine ih _ m ?_ hok
      intro pr hpr
      rcases mem_setK hpr with rfl | hpr'
      · show extractTokens (replaceTokens (fun t => (lookupStr acc t).getD "undefined") raw) = []
        refine extractTokens_replaceTokens_empty _ raw ?_
        intro t _
        cases hlt : lookupStr acc t with
        | none => rfl
        | some v =>
          simp only [Option.getD_some]
          exact hacc (t, v) (lookupStr_mem hlt)
      · exact hacc pr hpr'

/-- On success, every expanded equation text is entirely token-free. -/
theorem getExpandedEquations_token_free (r : EquationResolver)
    (m : List (String × String)) (h : r.getExpandedEquations = .ok m) :
    ∀ pr, pr ∈ m → extractTokens pr.2 = [] := by
  unfold EquationResolver.getExpandedEquations at h
  by_cases hc : r.hasCycle
  · rw [if_pos hc] at h; cases h
  · rw [if_neg hc] at h
    exact expandLoop_token_free _ _ [] m (by intro pr hpr; simp at hpr) h

/-! ## Resolver-level facts -/

theorem newEquationResolver_graphCycle (input : List (String × String)) :
    (newEquationResolver input).graphCycle =
      (TopologicalSorter.run (buildGraph input)).cycle := by
  unfold newEquationResolver
  by_cases hc : TopologicalSorter.hasCycle (TopologicalSorter.run (buildGraph input))
  · rw [if_pos hc]
    rfl
  · rw [if_neg hc]
    unfold TopologicalSorter.hasCycle at hc
    show none = _
    exact (Option.not_isSome_iff_eq_none.mp (by simpa using hc)).symm

theorem newEquationResolver_input (input : List (String × String)) :
    (newEquationResolver input).inputEquations = input := by
  unfold newEquationResolver
  by_cases hc : TopologicalSorter.hasCycle (TopologicalSorter.run (buildGraph input))
  · rw [if_pos hc]
  · rw [if_neg hc]

theorem newEquationResolver_order (input : List (String × String))
    (h : TopologicalSorter.hasCycle (TopologicalSorter.run (buildGraph input)) = false) :
    (newEquationResolver input).topologicalOrder =
      some (TopologicalSorter.run (buildGraph input)).ordering := by
  unfold newEquationResolver
  rw [if_neg (by rw [h]; exact Bool.false_ne_true)]

/-- Whenever the resolver reports a cycle, the reported list starts and ends
with the same vertex. -/
theorem getCycle_shape (input : List (String × String)) (c : List String)
    (h : (newEquationResolver input).getCycle = some c) : ∃ w l, c = w :: (l ++ [w]) := by
  unfold EquationResolver.getCycle at h
  rw [newEquationResolver_graphCycle] at h
  obtain ⟨hinv, _, _, _⟩ := run_spec (buildGraph input)
  rcases hinv.cycleShape with hnone | ⟨w, l, hsome⟩
  · rw [hnone] at h
    cases h
  · rw [hsome] at h
    exact ⟨w, l, by injection h with h'; exact h'.symm⟩

/-- The two resolver constructions agree field by field on the behavior
visible through their public methods. -/
theorem resolvers_agree (input : List (String × String)) :
    (newEquationResolver input).hasCycle = (newExpressionResolver input).hasCycle ∧
    (newEquationResolver input).getCycle = (newExpressionResolver input).getCycle ∧
    (newEquationResolver input).getExpandedEquations =
      (newExpressionResolver input).getExpandedExpressions := by
  unfold newEquationResolver newExpressionResolver
  by_cases hc : TopologicalSorter.hasCycle (TopologicalSorter.run (buildGraph input))
  · rw [if_pos hc, if_pos hc]
    refine ⟨?_, rfl, ?_⟩
    · show (TopologicalSorter.getCycle _).isSome = true
      unfold TopologicalSorter.getCycle
      unfold TopologicalSorter.hasCycle at hc
      exact hc
    · show EquationResolver.getExpandedEquations _ = ExpressionResolver.getExpandedExpressions _
      unfold EquationResolver.getExpandedEquations ExpressionResolver.getExpandedExpressions
      have h1 : EquationResolver.hasCycle
          { inputEquations := input,
            graphCycle := TopologicalSorter.getCycle (TopologicalSorter.run (buildGraph input)),
            topologicalOrder := none } = true := by
        show (TopologicalSorter.getCycle _).isSome = true
        unfold TopologicalSorter.getCycle
        unfold TopologicalSorter.hasCycle at hc
        exact hc
      rw [h1]
      rfl
  · rw [if_neg hc, if_neg hc]
    refine ⟨rfl, rfl, rfl⟩

theorem addVertex_of_mem {g : Graph} {v : String} (h : v ∈ g.vertices) :
    g.addVertex v = g := by
  unfold Graph.addVertex
  rw [if_pos h]

theorem addEdge_of_mem {g : Graph} {v w : String} (h : w ∈ g.getAdjacencyList v) :
    g.addEdge v w = g := by
  unfold Graph.getAdjacencyList at h
  unfold Graph.addEdge
  cases hl : lookupAdj g.adj v with
  | none => rw [hl] at h; simp at h
  | some l =>
    rw [hl] at h
    simp only [Option.getD_some] at h
    dsimp only
    rw [if_pos h]

/-! ## The claims -/

/-- C1: for every input equation set on which the topological sorter's
`getOrdering()` succeeds (exactly the acyclic inputs, by C3), and for every
edge `v → w` of the dependency graph built from it, the vertex `w` appears
strictly before the vertex `v` in the returned ordering: dependencies come
before dependents when the ordering is read left to right. -/
theorem claim_C1 (input : List (String × String)) (l : List String) (v w : String)
    (hok : TopologicalSorter.getOrdering (TopologicalSorter.run (buildGraph input)) =
      Except.ok l)
    (he : (buildGraph input).hasEdge v w) :
    w ∈ l ∧ v ∈ l ∧ l.indexOf w < l.indexOf v := by
  unfold TopologicalSorter.getOrdering at hok
  by_cases hc : (TopologicalSorter.run (buildGraph input)).cycle.isSome
  · rw [if_pos hc] at hok
    cases hok
  · rw [if_neg hc] at hok
    injection hok with hok
    subst hok
    have hnone : (TopologicalSorter.run (buildGraph input)).cycle = none :=
      Option.not_isSome_iff_eq_none.mp (by simpa using hc)
    obtain ⟨hv, hw, hlt⟩ := run_topo hnone (buildGraph_wf input v w he) he
    exact ⟨hw, hv, hlt⟩

theorem claim_C1_witness :
    "B" ∈ ["C", "B", "A", "D"] ∧ "A" ∈ ["C", "B", "A", "D"] ∧
      (["C", "B", "A", "D"] : List String).indexOf "B" <
        (["C", "B", "A", "D"] : List String).indexOf "A" :=
  claim_C1 [("A", "B+2"), ("B", "C+5"), ("C", "1"), ("D", "A+B")]
    ["C", "B", "A", "D"] "A" "B" rfl (by decide)

/-- C2: for the input `{A:"B+2", B:"C+5", C:"1", D:"A+B"}`, `hasCycle()` is
`false` and `getExpandedEquations()` returns exactly the map
`{A:"1+5+2", B:"1+5", C:"1", D:"1+5+2+1+5"}` (the returned object lists its
keys in topological order `C, B, A, D`; as a key → value map it is exactly
the claimed one). -/
theorem claim_C2 :
    (newEquationResolver [("A", "B+2"), ("B", "C+5"), ("C", "1"), ("D", "A+B")]).hasCycle
      = false ∧
    (newEquationResolver
        [("A", "B+2"), ("B", "C+5"), ("C", "1"), ("D", "A+B")]).getExpandedEquations
      = Except.ok [("C", "1"), ("B", "1+5"), ("A", "1+5+2"), ("D", "1+5+2+1+5")] :=
  ⟨rfl, rfl⟩

/-- C3: if the dependency graph of the input contains a directed cycle, the
sorter's `getOrdering()` throws; it succeeds if and only if there is no
directed cycle; and the resolver's `getExpandedEquations()` throws whenever
`hasCycle()` is `true`. -/
theorem claim_C3 (input : List (String × String)) :
    ((buildGraph input).hasDirectedCycle →
      TopologicalSorter.getOrdering (TopologicalSorter.run (buildGraph input)) =
        Except.error RunError.cycleError) ∧
    ((∃ l, TopologicalSorter.getOrdering (TopologicalSorter.run (buildGraph input)) =
        Except.ok l) ↔ ¬ (buildGraph input).hasDirectedCycle) ∧
    (∀ r : EquationResolver, r.hasCycle = true →
      r.getExpandedEquations = Except.error RunError.cycleError) := by
  have hiff := @hasCycle_iff_directedCycle (buildGraph input) (buildGraph_wf input)
  refine ⟨?_, ?_, ?_⟩
  · intro hgc
    have hc : (TopologicalSorter.run (buildGraph input)).cycle.isSome = true :=
      hiff.mpr hgc
    unfold TopologicalSorter.getOrdering
    rw [if_pos hc]
  · constructor
    · rintro ⟨l, hok⟩ hgc
      have hc : (TopologicalSorter.run (buildGraph input)).cycle.isSome = true :=
        hiff.mpr hgc
      unfold TopologicalSorter.getOrdering at hok
      rw [if_pos hc] at hok
      cases hok
    · intro hngc
      have hc : ¬ (TopologicalSorter.run (buildGraph input)).cycle.isSome = true :=
        fun h => hngc (hiff.mp h)
      refine ⟨(TopologicalSorter.run (buildGraph input)).ordering, ?_⟩
      unfold TopologicalSorter.getOrdering
      rw [if_neg hc]
  · intro r h
    unfold EquationResolver.getExpandedEquations
    rw [if_pos h]

theorem claim_C3_witness :
    TopologicalSorter.getOrdering (TopologicalSorter.run (buildGraph [("A", "A+1")])) =
      Except.error RunError.cycleError ∧
    (newEquationResolver [("A", "A+1")]).getExpandedEquations =
      Except.error RunError.cycleError :=
  ⟨(claim_C3 [("A", "A+1")]).1 ⟨"A", "A", by decide, Reach.refl "A"⟩,
   (claim_C3 [("A", "A+1")]).2.2 (newEquationResolver [("A", "A+1")]) (by decide)⟩

/-- C4: the claim requires that for the input `{A:"X+1"}` (X undefined)
`getExpandedEquations()` does not crash and follows one fixed documented
policy.  The code violates this: the undefined vertex `X` enters the
topological order, the loop looks up `inputEquations["X"]`, which is
`undefined`, and calling `.replace` on it throws a TypeError.  This theorem
evaluates the embedded code at the failing input. -/
theorem claim_C4_bug :
    (newEquationResolver [("A", "X+1")]).getExpandedEquations =
      Except.error RunError.typeError := rfl

/-- C5: the variable-token extraction rule matches exactly the maximal
whole-word runs of one or more uppercase letters not immediately followed by
an opening parenthesis (`extractTokens` equals the spec-rule `specVarTokens`
on every string), the very same rule governs substitution (`replaceTokens`
equals the spec-rule `specReplaceTokens`, which replaces exactly the runs
selected by the same rule; `buildGraph` calls `extractTokens` and
`getExpandedEquations` calls `replaceTokens` by definition), and for
`"FOO(A,B)+C"` the extracted dependencies are exactly A, B, C with FOO
excluded. -/
theorem claim_C5 :
    (∀ s : String, extractTokens s = specVarTokens s) ∧
    (∀ (f : String → String) (s : String), replaceTokens f s = specReplaceTokens f s) ∧
    extractTokens "FOO(A,B)+C" = ["A", "B", "C"] :=
  ⟨extractTokens_eq_spec, replaceTokens_eq_spec, by decide⟩

/-- C6: for the input `{A:"A+1"}`, `hasCycle()` is `true` and `getCycle()`
is exactly `["A","A"]`; in general every cycle the resolver returns is a
sequence that starts and ends with the same repeated name. -/
theorem claim_C6 :
    (newEquationResolver [("A", "A+1")]).hasCycle = true ∧
    (newEquationResolver [("A", "A+1")]).getCycle = some ["A", "A"] ∧
    (∀ (input : List (String × String)) (c : List String),
      (newEquationResolver input).getCycle = some c → ∃ w l, c = w :: (l ++ [w])) :=
  ⟨by decide, by decide, getCycle_shape⟩

theorem claim_C6_witness : ∃ w l, ["A", "A"] = w :: (l ++ [w]) :=
  claim_C6.2.2 [("A", "A+1")] ["A", "A"] (by decide)

/-- C7 (amended): for every input, calling `getExpandedEquations()` twice
returns equal results, and each call leaves the resolver object exactly as
constructed — graph construction and topological sorting happen once, inside
the constructor, but the expansion result is NOT cached: the method stores
nothing on the resolver and recomputes the substitution pass on every
call. -/
theorem claim_C7_amended (input : List (String × String)) :
    ((newEquationResolver input).getExpandedEquationsCall.2.getExpandedEquationsCall).1 =
      (newEquationResolver input).getExpandedEquationsCall.1 ∧
    (newEquationResolver input).getExpandedEquationsCall.2 = newEquationResolver input ∧
    ((newEquationResolver input).getExpandedEquationsCall.2.getExpandedEquationsCall).2 =
      newEquationResolver input :=
  ⟨rfl, rfl, rfl⟩

/-- C7 (counterexample to the claim as stated): the claim asserts the
expanded result is computed once on first request and cached on the resolver
thereafter.  A cache write would change the resolver object; but after the
first call — which does produce the expanded map — the resolver is exactly
the freshly constructed object, so nothing was cached and every later call
recomputes the substitution pass. -/
theorem claim_C7_counterexample :
    (newEquationResolver [("A", "1")]).getExpandedEquationsCall.2 =
      newEquationResolver [("A", "1")] ∧
    (newEquationResolver [("A", "1")]).getExpandedEquationsCall.1 =
      Except.ok [("A", "1")] :=
  ⟨rfl, rfl⟩

/-- C8: on every input on which expansion succeeds, no equation name occurs
as a bare variable token in its own fully expanded text (the proof shows the
stronger invariant that expanded texts contain no bare tokens at all); if a
cycle exists, expansion is refused instead. -/
theorem claim_C8 :
    (∀ (input : List (String × String)) (m : List (String × String)) (pr : String × String),
      (newEquationResolver input).getExpandedEquations = Except.ok m →
      pr ∈ m → pr.1 ∉ extractTokens pr.2) ∧
    (∀ input : List (String × String), (newEquationResolver input).hasCycle = true →
      (newEquationResolver input).getExpandedEquations =
        Except.error RunError.cycleError) := by
  constructor
  · intro input m pr hok hpr
    rw [getExpandedEquations_token_free _ m hok pr hpr]
    simp
  · intro input h
    unfold EquationResolver.getExpandedEquations
    rw [if_pos h]

theorem claim_C8_witness :
    ("A" : String) ∉ extractTokens "1+5+2" ∧
    (newEquationResolver [("A", "A+1")]).getExpandedEquations =
      Except.error RunError.cycleError :=
  ⟨claim_C8.1 [("A", "B+2"), ("B", "C+5"), ("C", "1"), ("D", "A+B")]
      [("C", "1"), ("B", "1+5"), ("A", "1+5+2"), ("D", "1+5+2+1+5")]
      ("A", "1+5+2") rfl (by decide),
   claim_C8.2 [("A", "A+1")] (by decide)⟩

/-- C9: the Graph keeps set semantics: `addVertex` of a present name leaves
the graph unchanged, `addEdge` of a present pair stores no duplicate, and
building from `{N:"A+A+B"}` produces exactly one edge N→A and one edge
N→B. -/
theorem claim_C9 :
    (∀ (g : Graph) (v : String), v ∈ g.vertices → g.addVertex v = g) ∧
    (∀ (g : Graph) (v w : String), w ∈ g.getAdjacencyList v → g.addEdge v w = g) ∧
    ((buildGraph [("N", "A+A+B")]).getAdjacencyList "N").count "A" = 1 ∧
    ((buildGraph [("N", "A+A+B")]).getAdjacencyList "N").count "B" = 1 :=
  ⟨fun _ _ h => addVertex_of_mem h, fun _ _ _ h => addEdge_of_mem h, by decide, by decide⟩

theorem claim_C9_witness :
    (buildGraph [("N", "A+A+B")]).addVertex "N" = buildGraph [("N", "A+A+B")] ∧
    (buildGraph [("N", "A+A+B")]).addEdge "N" "A" = buildGraph [("N", "A+A+B")] :=
  ⟨claim_C9.1 _ "N" (by decide), claim_C9.2.1 _ "N" "A" (by decide)⟩

/-- C10: the two resolver implementations are behaviorally equivalent: for
every input mapping they agree on `hasCycle()`, on `getCycle()`, and on the
result of `getExpandedEquations()`/`getExpandedExpressions()`, differing only
in internal cycle-flag representation and naming. -/
theorem claim_C10 (input : List (String × String)) :
    (newEquationResolver input).hasCycle = (newExpressionResolver input).hasCycle ∧
    (newEquationResolver input).getCycle = (newExpressionResolver input).getCycle ∧
    (newEquationResolver input).getExpandedEquations =
      (newExpressionResolver input).getExpandedExpressions :=
  resolvers_agree input
